import Mathlib

/-!
# Verification of the BusTub storage-core specification

Shallow embedding of the storage-management core of the repository
(`Think5UP/bustub-private`): the LRU-K replacer (`src/buffer/lru_k_replacer.cpp`),
the extendible hash table (`src/container/hash/extendible_hash_table.cpp`),
the buffer pool manager (`src/buffer/buffer_pool_manager_instance.cpp`) and the
B+-tree index (`src/storage/index/b_plus_tree.cpp` and the two page files).

Modelling conventions:
* machine integers become `Nat`/`Int` (the programs never overflow 32 bits in
  the scenarios and states considered);
* the C++ `std::list` + iterator-map pairs become plain Lean lists (the map
  only caches iterator positions; membership in the map coincides with
  membership in the list throughout the source);
* mutation becomes explicit state passing; `throw` becomes `Except.error`;
* every loop is embedded as structural recursion on an explicit fuel so that
  all definitions evaluate by kernel reduction.
-/

set_option maxHeartbeats 1000000

namespace BusTub

/-- Pointwise update of a total map, used for every `m[key] = value` assignment
of the source. -/
def fupd {κ α : Type} [DecidableEq κ] (h : κ → α) (x : κ) (v : α) : κ → α :=
  fun y => if y = x then v else h y

@[simp] theorem fupd_self {κ α : Type} [DecidableEq κ] (h : κ → α) (x : κ) (v : α) :
    fupd h x v x = v := by simp [fupd]

theorem fupd_ne {κ α : Type} [DecidableEq κ] (h : κ → α) (x : κ) (v : α) {y : κ}
    (hy : y ≠ x) : fupd h x v y = h y := by simp [fupd, hy]

/-! ## LRU-K replacer (`src/buffer/lru_k_replacer.cpp`)

State of `LRUKReplacer`.  `historyList`/`cacheList` have their most recent
element at the head (the C++ pushes with `push_front`); `history_map_` /
`cache_map_` only store list iterators and are represented by list membership.
`accessCount` is `access_count_`, `evictableFlag` is `is_evictable_` (both
`std::unordered_map`s defaulting to 0 / false), `currSize` is `curr_size_`
and `numFrames` is `replacer_size_`. -/
structure LRUK where
  numFrames : Nat
  k : Nat
  historyList : List Nat
  cacheList : List Nat
  accessCount : Nat → Nat
  evictableFlag : Nat → Bool
  currSize : Nat

/-- The constructor `LRUKReplacer(num_frames, k)`. -/
def LRUK.init (numFrames k : Nat) : LRUK :=
  { numFrames := numFrames, k := k, historyList := [], cacheList := [],
    accessCount := fun _ => 0, evictableFlag := fun _ => false, currSize := 0 }

/-- `LRUKReplacer::RecordAccess` (lines 53-86).  The bound check is the
source's `frame_id > static_cast<int>(replacer_size_)` — note `>`', not `>=`. -/
def LRUK.recordAccess (s : LRUK) (f : Nat) : Except Unit LRUK :=
  if s.numFrames < f then .error () else
  let c := s.accessCount f + 1
  let ac := fupd s.accessCount f c
  if c = s.k then
    -- move from the history list (erase if present) to the front of the cache list
    .ok { s with accessCount := ac, historyList := s.historyList.erase f,
                 cacheList := f :: s.cacheList }
  else if s.k < c then
    -- refresh the position in the cache list
    .ok { s with accessCount := ac, cacheList := f :: s.cacheList.erase f }
  else
    -- first accesses: enter the history list once
    .ok { s with accessCount := ac,
                 historyList := if f ∈ s.historyList then s.historyList
                                else f :: s.historyList }

/-- `LRUKReplacer::SetEvictable` (lines 88-106). -/
def LRUK.setEvictable (s : LRUK) (f : Nat) (b : Bool) : Except Unit LRUK :=
  if s.numFrames < f then .error () else
  if s.accessCount f = 0 then .ok s else
  let sz1 := if s.evictableFlag f = false ∧ b = true then s.currSize + 1 else s.currSize
  let sz2 := if s.evictableFlag f = true ∧ b = false then sz1 - 1 else sz1
  .ok { s with evictableFlag := fupd s.evictableFlag f b, currSize := sz2 }

/-- `LRUKReplacer::Remove` (lines 108-129). -/
def LRUK.removeFrame (s : LRUK) (f : Nat) : Except Unit LRUK :=
  if s.numFrames < f then .error () else
  if s.accessCount f = 0 then .ok s else
  let hist := if s.k ≤ s.accessCount f then s.historyList else s.historyList.erase f
  let cache := if s.k ≤ s.accessCount f then s.cacheList.erase f else s.cacheList
  .ok { s with historyList := hist, cacheList := cache,
               accessCount := fupd s.accessCount f 0,
               evictableFlag := fupd s.evictableFlag f false,
               currSize := s.currSize - 1 }

/-- `LRUKReplacer::Evict` (lines 19-51): scan the history list from its
least-recent end (the C++ iterates `rbegin()`→`rend()`, and the least recent
element is at the back), then the cache list likewise. -/
def LRUK.evict (s : LRUK) : Option (Nat × LRUK) :=
  if s.currSize = 0 then none else
  match s.historyList.reverse.find? (fun f => s.evictableFlag f) with
  | some f =>
      some (f, { s with accessCount := fupd s.accessCount f 0,
                        historyList := s.historyList.erase f,
                        evictableFlag := fupd s.evictableFlag f false,
                        currSize := s.currSize - 1 })
  | none =>
    match s.cacheList.reverse.find? (fun f => s.evictableFlag f) with
    | some f =>
        some (f, { s with accessCount := fupd s.accessCount f 0,
                          cacheList := s.cacheList.erase f,
                          evictableFlag := fupd s.evictableFlag f false,
                          currSize := s.currSize - 1 })
    | none => none

/-- `LRUKReplacer::Size` (lines 131-134). -/
def LRUK.size (s : LRUK) : Nat := s.currSize

/-- Total wrapper of `recordAccess` (identity on the unreachable error branch);
used to build concrete states and by the buffer pool, whose frame arguments are
always `< poolSize`, so the bound check never fires. -/
def LRUK.recordAccessD (s : LRUK) (f : Nat) : LRUK :=
  match s.recordAccess f with
  | .ok t => t
  | .error _ => s

/-- Total wrapper of `setEvictable`. -/
def LRUK.setEvictableD (s : LRUK) (f : Nat) (b : Bool) : LRUK :=
  match s.setEvictable f b with
  | .ok t => t
  | .error _ => s

/-- Total wrapper of `removeFrame`. -/
def LRUK.removeFrameD (s : LRUK) (f : Nat) : LRUK :=
  match s.removeFrame f with
  | .ok t => t
  | .error _ => s

/-- Replacer states reachable through the public interface.  The `remove` step
carries the caller invariant documented by the spec ("must not be called on a
non-evictable frame with nonzero count"): the buffer pool, the only caller,
respects it. -/
inductive LRUK.Reach : LRUK → Prop where
  | init (n k : Nat) : Reach (LRUK.init n k)
  | record {s s' : LRUK} {f : Nat} : Reach s → s.recordAccess f = .ok s' → Reach s'
  | setEv {s s' : LRUK} {f : Nat} {b : Bool} :
      Reach s → s.setEvictable f b = .ok s' → Reach s'
  | remove {s s' : LRUK} {f : Nat} :
      Reach s → (s.accessCount f = 0 ∨ s.evictableFlag f = true) →
      s.removeFrame f = .ok s' → Reach s'
  | evict {s s' : LRUK} {f : Nat} : Reach s → s.evict = some (f, s') → Reach s'

/-! ### Generic list helpers used by the invariant proofs -/

theorem length_filter_perm_cons_erase {l : List Nat} {f : Nat} (hf : f ∈ l)
    (p : Nat → Bool) :
    (l.filter p).length = (if p f then 1 else 0) + ((l.erase f).filter p).length := by
  have hp := (List.perm_cons_erase hf).filter p
  rw [hp.length_eq, List.filter_cons]
  by_cases h : p f = true
  · simp [h]; omega
  · simp [h]

theorem filter_pointwise_update {l : List Nat} {f : Nat} (hf : f ∉ l)
    (p : Nat → Bool) (b : Bool) :
    l.filter (fupd p f b) = l.filter p := by
  apply List.filter_congr
  intro x hx
  exact fupd_ne p f b (fun h => hf (h ▸ hx))

/-! ### The replacer invariant

`curr_size_` counts the evictable frames, every evictable frame sits in exactly
one of the two lists, history members have been seen fewer than `k` times and
cache members at least `k` times.  All of this holds for every state reachable
through the public interface. -/

structure LRUK.Inv (s : LRUK) : Prop where
  histNodup : s.historyList.Nodup
  cacheNodup : s.cacheList.Nodup
  histCount : ∀ f ∈ s.historyList, 0 < s.accessCount f ∧ s.accessCount f < s.k
  cacheCount : ∀ f ∈ s.cacheList, s.k ≤ s.accessCount f ∧ 0 < s.accessCount f
  memIff : ∀ f, 0 < s.accessCount f ↔ (f ∈ s.historyList ∨ f ∈ s.cacheList)
  evCount : ∀ f, s.evictableFlag f = true → 0 < s.accessCount f
  sizeEq : s.currSize = ((s.historyList ++ s.cacheList).filter s.evictableFlag).length

theorem LRUK.Inv.disjoint {s : LRUK} (inv : s.Inv) :
    ∀ f ∈ s.historyList, f ∉ s.cacheList := by
  intro f hh hc
  have h1 := inv.histCount f hh
  have h2 := inv.cacheCount f hc
  omega

theorem LRUK.Inv.appendNodup {s : LRUK} (inv : s.Inv) :
    (s.historyList ++ s.cacheList).Nodup :=
  inv.histNodup.append inv.cacheNodup inv.disjoint

theorem LRUK.inv_init (n k : Nat) : (LRUK.init n k).Inv := by
  constructor <;> simp [LRUK.init]

theorem LRUK.inv_recordAccess {s s' : LRUK} {f : Nat} (inv : s.Inv)
    (h : s.recordAccess f = .ok s') : s'.Inv := by
  unfold LRUK.recordAccess at h
  by_cases hb : s.numFrames < f
  · simp [hb] at h
  simp only [if_neg hb] at h
  by_cases hk : s.accessCount f + 1 = s.k
  · -- the frame graduates to the cache list
    simp only [if_pos hk] at h
    cases h
    have hfc : f ∉ s.cacheList := by
      intro hc
      have := inv.cacheCount f hc
      omega
    refine ⟨?_, ?_, ?_, ?_, ?_, ?_, ?_⟩ <;> dsimp only
    · exact inv.histNodup.erase f
    · exact List.nodup_cons.mpr ⟨hfc, inv.cacheNodup⟩
    · intro g hg
      rcases (inv.histNodup.mem_erase_iff).mp hg with ⟨hgf, hgl⟩
      rw [fupd_ne _ _ _ hgf]
      exact inv.histCount g hgl
    · intro g hg
      rcases List.mem_cons.mp hg with hgf | hgl
      · subst hgf; rw [fupd_self]; omega
      · have hgf : g ≠ f := fun hh => hfc (hh ▸ hgl)
        rw [fupd_ne _ _ _ hgf]
        exact inv.cacheCount g hgl
    · intro g
      by_cases hgf : g = f
      · subst hgf
        rw [fupd_self]
        simp
      · rw [fupd_ne _ _ _ hgf]
        simp only [List.mem_cons, inv.histNodup.mem_erase_iff, hgf, false_or]
        rw [inv.memIff g]
        tauto
    · intro g hg
      by_cases hgf : g = f
      · subst hgf; rw [fupd_self]; omega
      · rw [fupd_ne _ _ _ hgf]
        exact inv.evCount g hg
    · -- curr_size_ unchanged: the two list families are permutations of each other
      show s.currSize = _
      by_cases hfh : f ∈ s.historyList
      · have p1 : List.Perm (s.historyList ++ s.cacheList)
            (f :: (s.historyList.erase f ++ s.cacheList)) :=
          (List.perm_cons_erase hfh).append_right _
        have p2 : List.Perm (s.historyList.erase f ++ f :: s.cacheList)
            (f :: (s.historyList.erase f ++ s.cacheList)) := List.perm_middle
        have := ((p1.trans p2.symm).filter s.evictableFlag).length_eq
        rw [inv.sizeEq, this]
      · rw [List.erase_of_not_mem hfh]
        have hflag : s.evictableFlag f = false := by
          by_contra hfl
          have : 0 < s.accessCount f := inv.evCount f (by simpa using hfl)
          rcases (inv.memIff f).mp this with h1 | h1
          · exact hfh h1
          · exact hfc h1
        have p2 : List.Perm (s.historyList ++ f :: s.cacheList)
            (f :: (s.historyList ++ s.cacheList)) := List.perm_middle
        have := (p2.filter s.evictableFlag).length_eq
        rw [inv.sizeEq, this, List.filter_cons, hflag]
        simp
  · simp only [if_neg hk] at h
    by_cases hk2 : s.k < s.accessCount f + 1
    · -- already in the cache list: refresh its position
      simp only [if_pos hk2] at h
      cases h
      have hfh : f ∉ s.historyList := by
        intro hh
        have := inv.histCount f hh
        omega
      refine ⟨?_, ?_, ?_, ?_, ?_, ?_, ?_⟩ <;> dsimp only
      · exact inv.histNodup
      · exact List.nodup_cons.mpr ⟨inv.cacheNodup.not_mem_erase, inv.cacheNodup.erase f⟩
      · intro g hg
        have hgf : g ≠ f := fun hh => hfh (hh ▸ hg)
        rw [fupd_ne _ _ _ hgf]
        exact inv.histCount g hg
      · intro g hg
        rcases List.mem_cons.mp hg with hgf | hgl
        · subst hgf; rw [fupd_self]; omega
        · rcases (inv.cacheNodup.mem_erase_iff).mp hgl with ⟨hgf, hgc⟩
          rw [fupd_ne _ _ _ hgf]
          exact inv.cacheCount g hgc
      · intro g
        by_cases hgf : g = f
        · subst hgf
          rw [fupd_self]
          simp
        · rw [fupd_ne _ _ _ hgf]
          simp only [List.mem_cons, inv.cacheNodup.mem_erase_iff, hgf, false_or]
          rw [inv.memIff g]
          tauto
      · intro g hg
        by_cases hgf : g = f
        · subst hgf; rw [fupd_self]; omega
        · rw [fupd_ne _ _ _ hgf]
          exact inv.evCount g hg
      · show s.currSize = _
        by_cases hfc : f ∈ s.cacheList
        · have p1 : List.Perm (s.historyList ++ s.cacheList)
              (f :: (s.historyList ++ s.cacheList.erase f)) :=
            ((List.perm_cons_erase hfc).append_left _).trans List.perm_middle
          have p2 : List.Perm (s.historyList ++ f :: s.cacheList.erase f)
              (f :: (s.historyList ++ s.cacheList.erase f)) := List.perm_middle
          have h3 : List.Perm (s.historyList ++ f :: s.cacheList.erase f)
              (s.historyList ++ s.cacheList) := p2.trans p1.symm
          have := (h3.filter s.evictableFlag).length_eq
          -- goal lists: hist ++ f :: cache.erase f  vs  we need to match shape
          rw [inv.sizeEq, ← this]
        · rw [List.erase_of_not_mem hfc]
          have hflag : s.evictableFlag f = false := by
            by_contra hfl
            have : 0 < s.accessCount f := inv.evCount f (by simpa using hfl)
            rcases (inv.memIff f).mp this with h1 | h1
            · exact hfh h1
            · exact hfc h1
          have p2 : List.Perm (s.historyList ++ f :: s.cacheList)
              (f :: (s.historyList ++ s.cacheList)) := List.perm_middle
          have := (p2.filter s.evictableFlag).length_eq
          rw [inv.sizeEq, this, List.filter_cons, hflag]
          simp
    · -- stays in (or first enters) the history list
      simp only [if_neg hk2] at h
      cases h
      have hfc : f ∉ s.cacheList := by
        intro hc
        have := inv.cacheCount f hc
        omega
      by_cases hfh : f ∈ s.historyList
      · refine ⟨?_, ?_, ?_, ?_, ?_, ?_, ?_⟩ <;> dsimp only
        · simpa [hfh] using inv.histNodup
        · exact inv.cacheNodup
        · intro g hg
          simp only [if_pos hfh] at hg
          by_cases hgf : g = f
          · subst hgf; rw [fupd_self]; omega
          · rw [fupd_ne _ _ _ hgf]
            exact inv.histCount g hg
        · intro g hg
          have hgf : g ≠ f := fun hh => hfc (hh ▸ hg)
          rw [fupd_ne _ _ _ hgf]
          exact inv.cacheCount g hg
        · intro g
          by_cases hgf : g = f
          · subst hgf
            rw [fupd_self]
            simp [hfh]
          · rw [fupd_ne _ _ _ hgf]
            simp only [if_pos hfh]
            exact inv.memIff g
        · intro g hg
          by_cases hgf : g = f
          · subst hgf; rw [fupd_self]; omega
          · rw [fupd_ne _ _ _ hgf]
            exact inv.evCount g hg
        · show s.currSize = _
          simp only [if_pos hfh]
          exact inv.sizeEq
      · have hc0 : s.accessCount f = 0 := by
          by_contra hc
          rcases (inv.memIff f).mp (Nat.pos_of_ne_zero hc) with h1 | h1
          · exact hfh h1
          · exact hfc h1
        have hflag : s.evictableFlag f = false := by
          by_contra hfl
          have := inv.evCount f (by simpa using hfl)
          omega
        refine ⟨?_, ?_, ?_, ?_, ?_, ?_, ?_⟩ <;> dsimp only
        · simp only [if_neg hfh]
          exact List.nodup_cons.mpr ⟨hfh, inv.histNodup⟩
        · exact inv.cacheNodup
        · intro g hg
          simp only [if_neg hfh] at hg
          rcases List.mem_cons.mp hg with hgf | hgl
          · subst hgf; rw [fupd_self]; omega
          · have hgf : g ≠ f := fun hh => hfh (hh ▸ hgl)
            rw [fupd_ne _ _ _ hgf]
            exact inv.histCount g hgl
        · intro g hg
          have hgf : g ≠ f := fun hh => hfc (hh ▸ hg)
          rw [fupd_ne _ _ _ hgf]
          exact inv.cacheCount g hg
        · intro g
          by_cases hgf : g = f
          · subst hgf
            rw [fupd_self]
            simp [if_neg hfh, hfh]
          · rw [fupd_ne _ _ _ hgf]
            simp only [if_neg hfh, List.mem_cons, hgf, false_or]
            exact inv.memIff g
        · intro g hg
          by_cases hgf : g = f
          · subst hgf; rw [fupd_self]; omega
          · rw [fupd_ne _ _ _ hgf]
            exact inv.evCount g hg
        · show s.currSize = _
          simp only [if_neg hfh]
          have : List.filter s.evictableFlag ((f :: s.historyList) ++ s.cacheList)
              = List.filter s.evictableFlag (s.historyList ++ s.cacheList) := by
            simp only [List.cons_append, List.filter_cons, hflag]
            simp
          rw [inv.sizeEq, ← this]

theorem LRUK.inv_setEvictable {s s' : LRUK} {f : Nat} {b : Bool} (inv : s.Inv)
    (h : s.setEvictable f b = .ok s') : s'.Inv := by
  unfold LRUK.setEvictable at h
  by_cases hb : s.numFrames < f
  · simp [hb] at h
  simp only [if_neg hb] at h
  by_cases hc : s.accessCount f = 0
  · simp only [if_pos hc] at h
    cases h
    exact inv
  simp only [if_neg hc] at h
  cases h
  have hmem : f ∈ s.historyList ++ s.cacheList := by
    rcases (inv.memIff f).mp (Nat.pos_of_ne_zero hc) with h1 | h1
    · exact List.mem_append.mpr (Or.inl h1)
    · exact List.mem_append.mpr (Or.inr h1)
  have hnd := inv.appendNodup
  have hkey := length_filter_perm_cons_erase hmem s.evictableFlag
  have hkey' := length_filter_perm_cons_erase hmem (fupd s.evictableFlag f b)
  rw [filter_pointwise_update (hnd.not_mem_erase) s.evictableFlag b, fupd_self] at hkey'
  refine ⟨?_, ?_, ?_, ?_, ?_, ?_, ?_⟩ <;> dsimp only
  · exact inv.histNodup
  · exact inv.cacheNodup
  · exact inv.histCount
  · exact inv.cacheCount
  · exact inv.memIff
  · intro g hg
    by_cases hgf : g = f
    · subst hgf; exact Nat.pos_of_ne_zero hc
    · rw [fupd_ne _ _ _ hgf] at hg
      exact inv.evCount g hg
  · show (if s.evictableFlag f = true ∧ b = false then
        (if s.evictableFlag f = false ∧ b = true then s.currSize + 1 else s.currSize) - 1
        else (if s.evictableFlag f = false ∧ b = true then s.currSize + 1 else s.currSize)) = _
    rw [hkey']
    have hold := inv.sizeEq
    rw [hkey] at hold
    rcases hfl : s.evictableFlag f with _ | _ <;> rcases hbv : b with _ | _ <;>
      simp [hfl, hbv] at hold ⊢ <;> omega

theorem LRUK.inv_removeFrame {s s' : LRUK} {f : Nat} (inv : s.Inv)
    (hguard : s.accessCount f = 0 ∨ s.evictableFlag f = true)
    (h : s.removeFrame f = .ok s') : s'.Inv := by
  unfold LRUK.removeFrame at h
  by_cases hb : s.numFrames < f
  · simp [hb] at h
  simp only [if_neg hb] at h
  by_cases hc : s.accessCount f = 0
  · simp only [if_pos hc] at h
    cases h
    exact inv
  simp only [if_neg hc] at h
  cases h
  have hflag : s.evictableFlag f = true := by
    rcases hguard with h1 | h1
    · exact absurd h1 hc
    · exact h1
  have hnd := inv.appendNodup
  by_cases hk : s.k ≤ s.accessCount f
  · -- the frame is in the cache list
    have hfc : f ∈ s.cacheList := by
      rcases (inv.memIff f).mp (Nat.pos_of_ne_zero hc) with h1 | h1
      · have := inv.histCount f h1
        omega
      · exact h1
    have hfh : f ∉ s.historyList := fun hh => (inv.disjoint f hh) hfc
    have hmem : f ∈ s.historyList ++ s.cacheList := List.mem_append.mpr (Or.inr hfc)
    refine ⟨?_, ?_, ?_, ?_, ?_, ?_, ?_⟩ <;> dsimp only
    · simp only [if_pos hk]
      exact inv.histNodup
    · simp only [if_pos hk]
      exact inv.cacheNodup.erase f
    · intro g hg
      simp only [if_pos hk] at hg
      have hgf : g ≠ f := fun hh => hfh (hh ▸ hg)
      rw [fupd_ne _ _ _ hgf]
      exact inv.histCount g hg
    · intro g hg
      simp only [if_pos hk] at hg
      rcases (inv.cacheNodup.mem_erase_iff).mp hg with ⟨hgf, hgc⟩
      rw [fupd_ne _ _ _ hgf]
      exact inv.cacheCount g hgc
    · intro g
      by_cases hgf : g = f
      · subst hgf
        rw [fupd_self]
        simp [if_pos hk, hfh, inv.cacheNodup.not_mem_erase]
      · rw [fupd_ne _ _ _ hgf]
        simp only [if_pos hk, inv.cacheNodup.mem_erase_iff, hgf, false_and, true_and]
        rw [inv.memIff g]
        simp [hgf]
    · intro g hg
      by_cases hgf : g = f
      · rw [hgf, fupd_self] at hg
        exact absurd hg (by simp)
      · rw [fupd_ne _ _ _ hgf] at hg
        rw [fupd_ne _ _ _ hgf]
        exact inv.evCount g hg
    · show s.currSize - 1 = _
      simp only [if_pos hk]
      have herase : (s.historyList ++ s.cacheList).erase f
          = s.historyList ++ s.cacheList.erase f := List.erase_append_right _ hfh
      have hkey := length_filter_perm_cons_erase hmem s.evictableFlag
      rw [herase] at hkey
      rw [filter_pointwise_update (l := s.historyList ++ s.cacheList.erase f)
        (f := f) (by rw [← herase]; exact hnd.not_mem_erase) s.evictableFlag false]
      rw [inv.sizeEq, hkey, if_pos hflag]
      omega
  · -- the frame is in the history list
    have hfh : f ∈ s.historyList := by
      rcases (inv.memIff f).mp (Nat.pos_of_ne_zero hc) with h1 | h1
      · exact h1
      · have := inv.cacheCount f h1
        omega
    have hfc : f ∉ s.cacheList := inv.disjoint f hfh
    have hmem : f ∈ s.historyList ++ s.cacheList := List.mem_append.mpr (Or.inl hfh)
    refine ⟨?_, ?_, ?_, ?_, ?_, ?_, ?_⟩ <;> dsimp only
    · simp only [if_neg hk]
      exact inv.histNodup.erase f
    · simp only [if_neg hk]
      exact inv.cacheNodup
    · intro g hg
      simp only [if_neg hk] at hg
      rcases (inv.histNodup.mem_erase_iff).mp hg with ⟨hgf, hgl⟩
      rw [fupd_ne _ _ _ hgf]
      exact inv.histCount g hgl
    · intro g hg
      simp only [if_neg hk] at hg
      have hgf : g ≠ f := fun hh => hfc (hh ▸ hg)
      rw [fupd_ne _ _ _ hgf]
      exact inv.cacheCount g hg
    · intro g
      by_cases hgf : g = f
      · subst hgf
        rw [fupd_self]
        simp [if_neg hk, hfc, inv.histNodup.not_mem_erase]
      · rw [fupd_ne _ _ _ hgf]
        simp only [if_neg hk, inv.histNodup.mem_erase_iff, hgf, false_and, true_and]
        rw [inv.memIff g]
        simp [hgf]
    · intro g hg
      by_cases hgf : g = f
      · rw [hgf, fupd_self] at hg
        exact absurd hg (by simp)
      · rw [fupd_ne _ _ _ hgf] at hg
        rw [fupd_ne _ _ _ hgf]
        exact inv.evCount g hg
    · show s.currSize - 1 = _
      simp only [if_neg hk]
      have herase : (s.historyList ++ s.cacheList).erase f
          = s.historyList.erase f ++ s.cacheList := List.erase_append_left _ hfh
      have hkey := length_filter_perm_cons_erase hmem s.evictableFlag
      rw [herase] at hkey
      rw [filter_pointwise_update (l := s.historyList.erase f ++ s.cacheList)
        (f := f) (by rw [← herase]; exact hnd.not_mem_erase) s.evictableFlag false]
      rw [inv.sizeEq, hkey, if_pos hflag]
      omega

theorem LRUK.inv_evict {s s' : LRUK} {f : Nat} (inv : s.Inv)
    (h : s.evict = some (f, s')) : s'.Inv := by
  unfold LRUK.evict at h
  by_cases hz : s.currSize = 0
  · simp [hz] at h
  simp only [if_neg hz] at h
  rcases hh : s.historyList.reverse.find? (fun g => s.evictableFlag g) with _ | g
  · rw [hh] at h
    rcases hcf : s.cacheList.reverse.find? (fun g => s.evictableFlag g) with _ | g
    · rw [hcf] at h
      exact absurd h (by simp)
    · rw [hcf] at h
      have hfl : s.evictableFlag g = true := by simpa using List.find?_some hcf
      have hfc : g ∈ s.cacheList := by
        have := List.mem_of_find?_eq_some hcf
        simpa using this
      injection h with h2
      injection h2 with hf hs
      subst hf
      subst hs
      have hfh : g ∉ s.historyList := fun hmem => inv.disjoint g hmem hfc
      have hmem : g ∈ s.historyList ++ s.cacheList := List.mem_append.mpr (Or.inr hfc)
      have hnd := inv.appendNodup
      refine ⟨?_, ?_, ?_, ?_, ?_, ?_, ?_⟩ <;> dsimp only
      · exact inv.histNodup
      · exact inv.cacheNodup.erase g
      · intro x hx
        have hxg : x ≠ g := fun hh2 => hfh (hh2 ▸ hx)
        rw [fupd_ne _ _ _ hxg]
        exact inv.histCount x hx
      · intro x hx
        rcases (inv.cacheNodup.mem_erase_iff).mp hx with ⟨hxg, hxc⟩
        rw [fupd_ne _ _ _ hxg]
        exact inv.cacheCount x hxc
      · intro x
        by_cases hxg : x = g
        · subst hxg
          rw [fupd_self]
          simp [hfh, inv.cacheNodup.not_mem_erase]
        · rw [fupd_ne _ _ _ hxg]
          simp only [inv.cacheNodup.mem_erase_iff, hxg, false_and, true_and]
          rw [inv.memIff x]
          simp [hxg]
      · intro x hx
        by_cases hxg : x = g
        · rw [hxg, fupd_self] at hx
          exact absurd hx (by simp)
        · rw [fupd_ne _ _ _ hxg] at hx
          rw [fupd_ne _ _ _ hxg]
          exact inv.evCount x hx
      · have herase : (s.historyList ++ s.cacheList).erase g
            = s.historyList ++ s.cacheList.erase g := List.erase_append_right _ hfh
        have hkey := length_filter_perm_cons_erase hmem s.evictableFlag
        rw [herase] at hkey
        rw [filter_pointwise_update (l := s.historyList ++ s.cacheList.erase g)
          (f := g) (by rw [← herase]; exact hnd.not_mem_erase) s.evictableFlag false]
        rw [inv.sizeEq, hkey, if_pos hfl]
        omega
  · rw [hh] at h
    have hfl : s.evictableFlag g = true := by simpa using List.find?_some hh
    have hfhm : g ∈ s.historyList := by
      have := List.mem_of_find?_eq_some hh
      simpa using this
    injection h with h2
    injection h2 with hf hs
    subst hf
    subst hs
    have hfc : g ∉ s.cacheList := inv.disjoint g hfhm
    have hmem : g ∈ s.historyList ++ s.cacheList := List.mem_append.mpr (Or.inl hfhm)
    have hnd := inv.appendNodup
    refine ⟨?_, ?_, ?_, ?_, ?_, ?_, ?_⟩ <;> dsimp only
    · exact inv.histNodup.erase g
    · exact inv.cacheNodup
    · intro x hx
      rcases (inv.histNodup.mem_erase_iff).mp hx with ⟨hxg, hxl⟩
      rw [fupd_ne _ _ _ hxg]
      exact inv.histCount x hxl
    · intro x hx
      have hxg : x ≠ g := fun hh2 => hfc (hh2 ▸ hx)
      rw [fupd_ne _ _ _ hxg]
      exact inv.cacheCount x hx
    · intro x
      by_cases hxg : x = g
      · subst hxg
        rw [fupd_self]
        simp [hfc, inv.histNodup.not_mem_erase]
      · rw [fupd_ne _ _ _ hxg]
        simp only [inv.histNodup.mem_erase_iff, hxg, false_and, true_and]
        rw [inv.memIff x]
        simp [hxg]
    · intro x hx
      by_cases hxg : x = g
      · rw [hxg, fupd_self] at hx
        exact absurd hx (by simp)
      · rw [fupd_ne _ _ _ hxg] at hx
        rw [fupd_ne _ _ _ hxg]
        exact inv.evCount x hx
    · have herase : (s.historyList ++ s.cacheList).erase g
          = s.historyList.erase g ++ s.cacheList := List.erase_append_left _ hfhm
      have hkey := length_filter_perm_cons_erase hmem s.evictableFlag
      rw [herase] at hkey
      rw [filter_pointwise_update (l := s.historyList.erase g ++ s.cacheList)
        (f := g) (by rw [← herase]; exact hnd.not_mem_erase) s.evictableFlag false]
      rw [inv.sizeEq, hkey, if_pos hfl]
      omega

/-- Every reachable replacer state satisfies the invariant. -/
theorem LRUK.reach_inv {s : LRUK} (h : s.Reach) : s.Inv := by
  induction h with
  | init n k => exact LRUK.inv_init n k
  | record _ heq ih => exact LRUK.inv_recordAccess ih heq
  | setEv _ heq ih => exact LRUK.inv_setEvictable ih heq
  | remove _ hguard heq ih => exact LRUK.inv_removeFrame ih hguard heq
  | evict _ heq ih => exact LRUK.inv_evict ih heq

/-! ### Facts about `Evict` shared by the replacer and buffer-pool claims -/

/-- `Evict` fails exactly on states (satisfying the invariant) with no
evictable frame. -/
theorem LRUK.evict_none_iff {s : LRUK} (inv : s.Inv) :
    s.evict = none ↔ ∀ f, s.evictableFlag f = false := by
  constructor
  · intro hnone f
    by_contra hfl
    have hfl' : s.evictableFlag f = true := by
      cases hev : s.evictableFlag f
      · exact absurd hev hfl
      · rfl
    have hpos := inv.evCount f hfl'
    have hmem : f ∈ s.historyList ++ s.cacheList := by
      rcases (inv.memIff f).mp hpos with h1 | h1
      · exact List.mem_append.mpr (Or.inl h1)
      · exact List.mem_append.mpr (Or.inr h1)
    unfold LRUK.evict at hnone
    by_cases hz : s.currSize = 0
    · rw [inv.sizeEq] at hz
      rw [List.length_eq_zero, List.filter_eq_nil_iff] at hz
      exact hz f hmem hfl'
    · simp only [if_neg hz] at hnone
      rcases hh : s.historyList.reverse.find? (fun g => s.evictableFlag g) with _ | g
      · rw [hh] at hnone
        rcases hc : s.cacheList.reverse.find? (fun g => s.evictableFlag g) with _ | g
        · rw [List.find?_eq_none] at hh hc
          rcases List.mem_append.mp hmem with h1 | h1
          · exact hh f (by simpa using h1) hfl'
          · exact hc f (by simpa using h1) hfl'
        · rw [hc] at hnone
          exact absurd hnone (by simp)
      · rw [hh] at hnone
        exact absurd hnone (by simp)
  · intro hall
    have hz : s.currSize = 0 := by
      rw [inv.sizeEq]
      have he : List.filter s.evictableFlag (s.historyList ++ s.cacheList) = [] :=
        List.filter_eq_nil_iff.mpr (fun a _ => by simp [hall a])
      rw [he]
      rfl
    unfold LRUK.evict
    rw [if_pos hz]

/-- Shape of a successful `Evict`: the victim is the first evictable frame in
history-then-cache scan order, it was evictable and listed, and the successor
state clears its count, flag and list membership, leaving everything else
unchanged. -/
theorem LRUK.evict_some {s s' : LRUK} {f : Nat} (h : s.evict = some (f, s')) :
    s.evictableFlag f = true
    ∧ (f ∈ s.historyList ∨ f ∈ s.cacheList)
    ∧ s'.accessCount = fupd s.accessCount f 0
    ∧ s'.evictableFlag = fupd s.evictableFlag f false
    ∧ s'.numFrames = s.numFrames
    ∧ s'.k = s.k
    ∧ ((s'.historyList = s.historyList.erase f ∧ s'.cacheList = s.cacheList)
        ∨ (s'.historyList = s.historyList ∧ s'.cacheList = s.cacheList.erase f)) := by
  unfold LRUK.evict at h
  by_cases hz : s.currSize = 0
  · rw [if_pos hz] at h
    exact absurd h (by simp)
  simp only [if_neg hz] at h
  rcases hh : s.historyList.reverse.find? (fun g => s.evictableFlag g) with _ | g
  · rw [hh] at h
    rcases hc : s.cacheList.reverse.find? (fun g => s.evictableFlag g) with _ | g
    · rw [hc] at h
      exact absurd h (by simp)
    · rw [hc] at h
      injection h with h2
      injection h2 with hf hs'
      subst hf
      subst hs'
      refine ⟨by simpa using List.find?_some hc, ?_, rfl, rfl, rfl, rfl, Or.inr ⟨rfl, rfl⟩⟩
      exact Or.inr (by simpa using List.mem_of_find?_eq_some hc)
  · rw [hh] at h
    injection h with h2
    injection h2 with hf hs'
    subst hf
    subst hs'
    refine ⟨by simpa using List.find?_some hh, ?_, rfl, rfl, rfl, rfl, Or.inl ⟨rfl, rfl⟩⟩
    exact Or.inl (by simpa using List.mem_of_find?_eq_some hh)

/-! ### Claims C2 and C9 -/

/-- The victim the spec describes: the first evictable frame of the history
list scanned from its least-recent end, otherwise the first evictable frame of
the cache list scanned from its least-recent end.  (Stated from the spec's
words, to be compared with `LRUK.evict`.) -/
def LRUK.specVictim (s : LRUK) : Option Nat :=
  match s.historyList.reverse.find? (fun f => s.evictableFlag f) with
  | some f => some f
  | none => s.cacheList.reverse.find? (fun f => s.evictableFlag f)

/-- Scenario S2 of the spec: `K=2`, 3 frames; `Access 1,1; Access 2,2,2;
Access 3; SetEvictable(1,2,3,true)`. -/
def c2Scenario : LRUK :=
  (((((((((LRUK.init 3 2).recordAccessD 1).recordAccessD 1).recordAccessD
    2).recordAccessD 2).recordAccessD 2).recordAccessD 3).setEvictableD 1
    true).setEvictableD 2 true).setEvictableD 3 true

theorem c2Scenario_reach : c2Scenario.Reach := by
  have h0 : LRUK.Reach (LRUK.init 3 2) := .init 3 2
  have h1 := @LRUK.Reach.record _ ((LRUK.init 3 2).recordAccessD 1) 1 h0 rfl
  have h2 := @LRUK.Reach.record _ (((LRUK.init 3 2).recordAccessD 1).recordAccessD 1) 1 h1 rfl
  have h3 := @LRUK.Reach.record _ ((((LRUK.init 3 2).recordAccessD 1).recordAccessD
    1).recordAccessD 2) 2 h2 rfl
  have h4 := @LRUK.Reach.record _ (((((LRUK.init 3 2).recordAccessD 1).recordAccessD
    1).recordAccessD 2).recordAccessD 2) 2 h3 rfl
  have h5 := @LRUK.Reach.record _ ((((((LRUK.init 3 2).recordAccessD 1).recordAccessD
    1).recordAccessD 2).recordAccessD 2).recordAccessD 2) 2 h4 rfl
  have h6 := @LRUK.Reach.record _ (((((((LRUK.init 3 2).recordAccessD 1).recordAccessD
    1).recordAccessD 2).recordAccessD 2).recordAccessD 2).recordAccessD 3) 3 h5 rfl
  have h7 := @LRUK.Reach.setEv _ ((((((((LRUK.init 3 2).recordAccessD 1).recordAccessD
    1).recordAccessD 2).recordAccessD 2).recordAccessD 2).recordAccessD 3).setEvictableD 1
    true) 1 true h6 rfl
  have h8 := @LRUK.Reach.setEv _ (((((((((LRUK.init 3 2).recordAccessD 1).recordAccessD
    1).recordAccessD 2).recordAccessD 2).recordAccessD 2).recordAccessD 3).setEvictableD 1
    true).setEvictableD 2 true) 2 true h7 rfl
  exact @LRUK.Reach.setEv _ c2Scenario 3 true h8 rfl

/-- **C2**: for every reachable LRU-K replacer state, `Evict` returns the first
evictable frame of the history list scanned from the least-recent end, else the
first evictable frame of the cache list scanned likewise; on success it clears
the evicted frame's access history (count reset, dropped from both lists) and
its evictable flag; it fails exactly when no evictable frame exists.  With K=2
and the accesses `1,1; 2,2,2; 3` and all frames evictable, `Evict` returns
frame 3. -/
theorem lruk_evict_follows_spec (s : LRUK) (hs : LRUK.Reach s) :
    (s.evict = none ↔ ∀ f, s.evictableFlag f = false)
    ∧ (∀ f s', s.evict = some (f, s') →
        s.specVictim = some f
        ∧ s'.accessCount f = 0
        ∧ s'.evictableFlag f = false
        ∧ f ∉ s'.historyList
        ∧ f ∉ s'.cacheList)
    ∧ (c2Scenario.evict).map Prod.fst = some 3 := by
  have inv := LRUK.reach_inv hs
  refine ⟨⟨?_, ?_⟩, ?_, ?_⟩
  · -- evict = none → nothing evictable
    intro hnone f
    by_contra hfl
    have hfl' : s.evictableFlag f = true := by
      cases hev : s.evictableFlag f
      · exact absurd hev hfl
      · rfl
    have hpos := inv.evCount f hfl'
    have hmem : f ∈ s.historyList ++ s.cacheList := by
      rcases (inv.memIff f).mp hpos with h1 | h1
      · exact List.mem_append.mpr (Or.inl h1)
      · exact List.mem_append.mpr (Or.inr h1)
    unfold LRUK.evict at hnone
    by_cases hz : s.currSize = 0
    · -- the filtered list would be empty, contradicting membership of f
      rw [inv.sizeEq] at hz
      rw [List.length_eq_zero, List.filter_eq_nil_iff] at hz
      exact hz f hmem hfl'
    · simp only [if_neg hz] at hnone
      rcases hh : s.historyList.reverse.find? (fun g => s.evictableFlag g) with _ | g
      · rw [hh] at hnone
        rcases hc : s.cacheList.reverse.find? (fun g => s.evictableFlag g) with _ | g
        · rw [List.find?_eq_none] at hh hc
          rcases List.mem_append.mp hmem with h1 | h1
          · exact hh f (by simpa using h1) hfl'
          · exact hc f (by simpa using h1) hfl'
        · rw [hc] at hnone
          exact absurd hnone (by simp)
      · rw [hh] at hnone
        exact absurd hnone (by simp)
  · -- nothing evictable → evict = none
    intro hall
    have hz : s.currSize = 0 := by
      rw [inv.sizeEq]
      have : List.filter s.evictableFlag (s.historyList ++ s.cacheList) = [] :=
        List.filter_eq_nil_iff.mpr (fun a _ => by simp [hall a])
      rw [this]
      rfl
    unfold LRUK.evict
    rw [if_pos hz]
  · -- success: the victim matches the spec's scan order, and its history is cleared
    intro f s' h
    unfold LRUK.evict at h
    by_cases hz : s.currSize = 0
    · rw [if_pos hz] at h
      exact absurd h (by simp)
    simp only [if_neg hz] at h
    rcases hh : s.historyList.reverse.find? (fun g => s.evictableFlag g) with _ | g
    · rw [hh] at h
      rcases hc : s.cacheList.reverse.find? (fun g => s.evictableFlag g) with _ | g
      · rw [hc] at h
        exact absurd h (by simp)
      · rw [hc] at h
        injection h with h2
        injection h2 with hf hs'
        subst hf
        subst hs'
        have hfc : g ∈ s.cacheList := by
          have := List.mem_of_find?_eq_some hc
          simpa using this
        have hfh : g ∉ s.historyList := fun hm => inv.disjoint g hm hfc
        refine ⟨?_, ?_, ?_, ?_, ?_⟩
        · unfold LRUK.specVictim
          rw [hh, hc]
        · exact fupd_self _ _ _
        · exact fupd_self _ _ _
        · exact hfh
        · exact inv.cacheNodup.not_mem_erase
    · rw [hh] at h
      injection h with h2
      injection h2 with hf hs'
      subst hf
      subst hs'
      have hfhm : g ∈ s.historyList := by
        have := List.mem_of_find?_eq_some hh
        simpa using this
      refine ⟨?_, ?_, ?_, ?_, ?_⟩
      · unfold LRUK.specVictim
        rw [hh]
      · exact fupd_self _ _ _
      · exact fupd_self _ _ _
      · exact inv.histNodup.not_mem_erase
      · exact fun hm => inv.disjoint g hfhm hm
  · -- scenario S2
    decide

/-- Witness for `lruk_evict_follows_spec`: the scenario state is reachable and
the theorem instantiates on it. -/
theorem lruk_evict_follows_spec_witness :
    (c2Scenario.evict).map Prod.fst = some 3 :=
  (lruk_evict_follows_spec c2Scenario c2Scenario_reach).2.2

/-- **C9** (code bug): the bound check of `RecordAccess`/`SetEvictable`/`Remove`
is `frame_id > replacer_size_`, so the out-of-range frame id `num_frames`
itself is accepted and mutates the replacer, while ids strictly greater are
rejected.  With `num_frames = 3`: frame 3 is accepted by all three entry
points (and `RecordAccess(3)` records an access), frame 4 raises the error. -/
theorem lruk_bound_check_off_by_one :
    ((LRUK.init 3 2).recordAccess 3).toOption.map (fun s => s.accessCount 3) = some 1
    ∧ ((LRUK.init 3 2).recordAccessD 3).historyList = [3]
    ∧ (((LRUK.init 3 2).recordAccessD 3).setEvictable 3 true).toOption.map
        (fun s => s.currSize) = some 1
    ∧ (((LRUK.init 3 2).recordAccessD 3).removeFrame 3).toOption.map
        (fun s => s.historyList) = some []
    ∧ (LRUK.init 3 2).recordAccess 4 = .error ()
    ∧ (LRUK.init 3 2).setEvictable 4 true = .error ()
    ∧ (LRUK.init 3 2).removeFrame 4 = .error () := by
  refine ⟨rfl, rfl, rfl, rfl, rfl, rfl, rfl⟩

/-! ## Extendible hash table (`src/container/hash/extendible_hash_table.cpp`)

The table is instantiated in the source at `ExtendibleHashTable<int, V>`;
`std::hash<int>` is the identity on non-negative ints on the platforms the
repository targets (libstdc++/libc++), so keys are modelled as `Nat` and the
hash as the identity.  `IndexOf` masks with `(1 << G) - 1`, which on naturals
is `% 2^G`.  Buckets are `std::shared_ptr<Bucket>`; pointer identity is
modelled by numbering the buckets with `nextId` and storing the directory as a
list of bucket ids.  `Bucket::IsFull`, `GetDepth` and `GetItems` are trivial
inline accessors declared in the class header (not under `src/`); they are
modelled from the spec's data model: a bucket has a capacity `size`
(`bucket_size_`), a local `depth` and an ordered list of key-value pairs, and
is full when the list length reaches the capacity. -/

structure EHBucket where
  size : Nat
  depth : Nat
  items : List (Nat × Int)
deriving DecidableEq

structure EHT where
  globalDepth : Nat
  bucketSize : Nat
  numBuckets : Nat
  dirIds : List Nat
  buckets : Nat → EHBucket
  nextId : Nat

/-- The constructor: one empty bucket of local depth 0 (`dir_.push_back(
make_shared<Bucket>(bucket_size, 0))`); `global_depth_ = 0` and
`num_buckets_ = 1` are the member initialisers of the class header (standard
starter code, header not under `src/`). -/
def EHT.init (bucketSize : Nat) : EHT :=
  { globalDepth := 0, bucketSize := bucketSize, numBuckets := 1,
    dirIds := [0], buckets := fun _ => ⟨bucketSize, 0, []⟩, nextId := 1 }

/-- `IndexOf(key) = std::hash<K>()(key) & ((1 << global_depth_) - 1)`;
masking a natural with `2^G - 1` is reduction mod `2^G`. -/
def EHT.indexOf (t : EHT) (k : Nat) : Nat := k % 2 ^ t.globalDepth

/-- The bucket currently responsible for key `k`: `dir_[IndexOf(key)]`. -/
def EHT.bucketAt (t : EHT) (k : Nat) : EHBucket :=
  t.buckets (t.dirIds.getD (t.indexOf k) 0)

/-- `Bucket::IsFull()` at the key's bucket (loop guard of `Insert`). -/
def EHT.fullAt (t : EHT) (k : Nat) : Bool :=
  (t.bucketAt k).items.length = (t.bucketAt k).size

/-- `Bucket::Find`: linear scan, first match. -/
def EHT.find (t : EHT) (k : Nat) : Option Int :=
  ((t.bucketAt k).items.find? (fun p => p.1 == k)).map Prod.snd

/-- `Bucket::Remove` through `ExtendibleHashTable::Remove`: erase the first
entry with the key; the structure (directory, depths) never shrinks. -/
def EHT.removeKey (t : EHT) (k : Nat) : Bool × EHT :=
  let id := t.dirIds.getD (t.indexOf k) 0
  let b := t.buckets id
  match b.items.find? (fun p => p.1 == k) with
  | none => (false, t)
  | some _ =>
      let b' := { b with items := b.items.eraseP (fun p => p.1 == k) }
      (true, { t with buckets := fupd t.buckets id b' })

/-- Indexed map over a list, used for the redistribution loop
`for (i...) if (dir_[i] == target) dir_[i] = (i & mask) ? b1 : b0`. -/
def mapWithIdx {α β : Type} (f : Nat → α → β) : Nat → List α → List β
  | _, [] => []
  | i, a :: as => f i a :: mapWithIdx f (i + 1) as

/-- The directory-doubling step of `Insert` (lines 91-101): resize to twice the
capacity, copy `dir_[i]` into `dir_[capacity + i]`, increment the global
depth. -/
def EHT.double (t : EHT) : EHT :=
  { t with dirIds := t.dirIds ++ t.dirIds, globalDepth := t.globalDepth + 1 }

/-- One iteration of the `while (dir_[IndexOf(key)]->IsFull())` loop of
`Insert` (lines 86-132): double the directory if the target bucket's local
depth equals the global depth, then split the target bucket into two fresh
buckets of depth `L+1`, distributing entries by bit `L` of their hash, count
the split if both halves are inhabited, and redirect every directory slot that
pointed at the target by bit `L` of the slot index. -/
def EHT.splitStep (t : EHT) (k : Nat) : EHT :=
  let index := t.indexOf k
  let targetId := t.dirIds.getD index 0
  let target := t.buckets targetId
  let bucketLocalDepth := target.depth
  let t1 := if t.globalDepth = bucketLocalDepth then t.double else t
  let mask := 1 <<< bucketLocalDepth
  let items0 := target.items.filter (fun p => p.1 &&& mask = 0)
  let items1 := target.items.filter (fun p => ¬ p.1 &&& mask = 0)
  let b0 := t1.nextId
  let b1 := t1.nextId + 1
  let nb := if ¬ items1.isEmpty ∧ ¬ items0.isEmpty
            then t1.numBuckets + 1 else t1.numBuckets
  { t1 with
    numBuckets := nb
    nextId := t1.nextId + 2
    buckets := fupd (fupd t1.buckets b0 ⟨t.bucketSize, bucketLocalDepth + 1, items0⟩)
                 b1 ⟨t.bucketSize, bucketLocalDepth + 1, items1⟩
    dirIds := mapWithIdx
      (fun i id => if id = targetId then (if ¬ i &&& mask = 0 then b1 else b0) else id)
      0 t1.dirIds }

/-- The split loop of `Insert`, with fuel (the C++ `while` terminates for any
key set whose hashes are not all equal; `none` models fuel exhaustion). -/
def EHT.insertLoop : Nat → EHT → Nat → Option EHT
  | 0, t, k => if t.fullAt k then none else some t
  | fuel + 1, t, k => if t.fullAt k then EHT.insertLoop fuel (t.splitStep k) k else some t

theorem EHT.insertLoop_succ (fuel : Nat) (t : EHT) (k : Nat) :
    EHT.insertLoop (fuel + 1) t k
      = if t.fullAt k then EHT.insertLoop fuel (t.splitStep k) k else some t := rfl

/-- Overwrite the value of the first entry carrying the key
(`for (auto &it : list) if (it.first == key) { it.second = value; return; }`). -/
def setFirstValue : List (Nat × Int) → Nat → Int → List (Nat × Int)
  | [], _, _ => []
  | p :: ps, k, v => if p.1 = k then (k, v) :: ps else p :: setFirstValue ps k v

/-- The tail of `Insert` after the split loop (lines 134-147): upsert into the
target bucket.  `Bucket::Insert` refuses a full bucket (dead after the loop)
and appends otherwise. -/
def EHT.upsert (t : EHT) (k : Nat) (v : Int) : EHT :=
  let id := t.dirIds.getD (t.indexOf k) 0
  let b := t.buckets id
  let items' :=
    if (b.items.find? (fun p => p.1 == k)).isSome then setFirstValue b.items k v
    else if b.items.length = b.size then b.items
    else b.items ++ [(k, v)]
  let b' := { b with items := items' }
  { t with buckets := fupd t.buckets id b' }

/-- `ExtendibleHashTable::Insert` (lines 83-147). -/
def EHT.insert (fuel : Nat) (t : EHT) (k : Nat) (v : Int) : Option EHT :=
  (EHT.insertLoop fuel t k).map (fun t' => t'.upsert k v)

/-- `GetGlobalDepth`. -/
def EHT.getGlobalDepth (t : EHT) : Nat := t.globalDepth

/-- Table states reachable from a fresh table through `Insert`, `Find` and
`Remove` (`Find` does not change the state). -/
inductive EHT.Reach : EHT → Prop where
  | init (bucketSize : Nat) : Reach (EHT.init bucketSize)
  | insert {t t' : EHT} {fuel k : Nat} {v : Int} :
      Reach t → EHT.insert fuel t k v = some t' → Reach t'
  | remove {t : EHT} (k : Nat) : Reach t → Reach (t.removeKey k).2

/-! ### Claim C6: last writer wins -/

theorem EHT.insertLoop_not_full {fuel : Nat} {t t1 : EHT} {k : Nat}
    (h : EHT.insertLoop fuel t k = some t1) : t1.fullAt k = false := by
  induction fuel generalizing t with
  | zero =>
    unfold EHT.insertLoop at h
    by_cases hf : t.fullAt k
    · simp [hf] at h
    · simp only [if_neg hf] at h
      cases h
      simpa using hf
  | succ fuel ih =>
    unfold EHT.insertLoop at h
    by_cases hf : t.fullAt k
    · rw [if_pos hf] at h
      exact ih h
    · simp only [if_neg hf] at h
      cases h
      simpa using hf

theorem setFirstValue_find {l : List (Nat × Int)} {k : Nat} (v : Int)
    (h : (l.find? (fun p => p.1 == k)).isSome) :
    (setFirstValue l k v).find? (fun p => p.1 == k) = some (k, v) := by
  induction l with
  | nil => simp at h
  | cons p ps ih =>
    by_cases hp : p.1 = k
    · unfold setFirstValue
      rw [if_pos hp]
      simp
    · unfold setFirstValue
      rw [if_neg hp]
      rw [List.find?_cons_of_neg _ (by simpa using hp)]
      rw [List.find?_cons_of_neg _ (by simpa using hp)] at h
      exact ih h

theorem EHT.find_upsert {t1 : EHT} {k : Nat} (v : Int)
    (hnf : t1.fullAt k = false) : (t1.upsert k v).find k = some v := by
  unfold EHT.upsert EHT.find EHT.bucketAt EHT.indexOf
  unfold EHT.fullAt EHT.bucketAt EHT.indexOf at hnf
  dsimp only
  rw [fupd_self]
  dsimp only
  by_cases hfound : ((t1.buckets (t1.dirIds.getD (k % 2 ^ t1.globalDepth) 0)).items.find?
      (fun p => p.1 == k)).isSome
  · rw [if_pos hfound, setFirstValue_find v hfound]
    rfl
  · rw [if_neg hfound]
    have hlen : ¬ (t1.buckets (t1.dirIds.getD (k % 2 ^ t1.globalDepth) 0)).items.length
        = (t1.buckets (t1.dirIds.getD (k % 2 ^ t1.globalDepth) 0)).size := by
      simpa using hnf
    rw [if_neg hlen, List.find?_append]
    have : (t1.buckets (t1.dirIds.getD (k % 2 ^ t1.globalDepth) 0)).items.find?
        (fun p => p.1 == k) = none := by
      cases hf : (t1.buckets (t1.dirIds.getD (k % 2 ^ t1.globalDepth) 0)).items.find?
          (fun p => p.1 == k)
      · rfl
      · rw [hf] at hfound
        simp at hfound
    rw [this]
    simp

/-- **C6**: after `Insert(k, v)` (from any table state, hence after any
operation sequence), `Find(k)` returns `v`: the upsert happens in the bucket
selected by `hash(k) & ((1<<G)-1)` after the split loop has made it non-full,
and `Find` scans exactly that bucket. -/
theorem eht_insert_then_find (fuel : Nat) (t : EHT) (k : Nat) (v : Int) (t' : EHT)
    (h : EHT.insert fuel t k v = some t') : t'.find k = some v := by
  unfold EHT.insert at h
  cases hl : EHT.insertLoop fuel t k with
  | none => rw [hl] at h; simp at h
  | some t1 =>
    rw [hl] at h
    rw [Option.map_some'] at h
    cases h
    exact EHT.find_upsert v (EHT.insertLoop_not_full hl)

/-- Witness for `eht_insert_then_find` at a concrete input. -/
theorem eht_insert_then_find_witness : ((EHT.init 2).upsert 1 5).find 1 = some 5 :=
  eht_insert_then_find 1 (EHT.init 2) 1 5 ((EHT.init 2).upsert 1 5) rfl

/-! ### Claims C7 and C10: scenario S4 and upsert-with-split -/

/-- Scenario S4 of the spec: `bucket_size = 2`, insert `(1,a); (5,b); (9,c)`
(values modelled as `1, 2, 3`). -/
def s4Table : EHT :=
  match (EHT.insert 10 (EHT.init 2) 1 1).bind
      (fun t => (EHT.insert 10 t 5 2).bind (fun u => EHT.insert 10 u 9 3)) with
  | some t => t
  | none => EHT.init 2

/-- **C7 counterexample**: on the code (`std::hash<int>` = identity), keys
1, 5, 9 share their two lowest bits, so the third insert triggers three
directory doublings, not one: `GetGlobalDepth()` returns 3, not 1. -/
theorem eht_s4_global_depth_not_one :
    s4Table.getGlobalDepth ≠ 1 ∧ s4Table.getGlobalDepth = 3 := by
  constructor
  · decide
  · decide

/-- **C7 amended**: the third insert forces repeated splits with three
consecutive directory doublings (1, 5 and 9 all equal 1 mod 4); afterwards
`GetGlobalDepth()` returns 3, the directory has 2^3 slots, and all three keys
are retrievable with their last-inserted values. -/
theorem eht_s4_scenario :
    ((EHT.insert 10 (EHT.init 2) 1 1).bind
      (fun t => EHT.insert 10 t 5 2)).map EHT.getGlobalDepth = some 0
    ∧ s4Table.getGlobalDepth = 3
    ∧ s4Table.dirIds.length = 8
    ∧ s4Table.find 1 = some 1
    ∧ s4Table.find 5 = some 2
    ∧ s4Table.find 9 = some 3 := by
  refine ⟨?_, ?_, ?_, ?_, ?_, ?_⟩ <;> decide

/-- **C10**: `Insert` with an existing key whose bucket is full does not
overwrite in place: the split loop runs first (conjunct 1: one full iteration
is peeled off before any upsert), and only the final state is upserted.
Demonstration on `s4Table`, where key 9 is present and its bucket `[1, 9]` is
full: `Insert(9, 7)` doubles the directory once more (global depth 3 → 4,
directory 8 → 16 slots, bucket count 2 → 3) and then overwrites, so
`Find(9)` yields the new value. -/
theorem eht_upsert_on_full_bucket_splits :
    (∀ (fuel : Nat) (t : EHT) (k : Nat) (v : Int), t.fullAt k = true →
      EHT.insert (fuel + 1) t k v
        = (EHT.insertLoop fuel (t.splitStep k) k).map (fun u => u.upsert k v))
    ∧ (s4Table.fullAt 9 = true ∧ (s4Table.find 9).isSome = true
        ∧ s4Table.getGlobalDepth = 3 ∧ s4Table.dirIds.length = 8
        ∧ s4Table.numBuckets = 2)
    ∧ (EHT.insert 10 s4Table 9 7).map
        (fun u => (u.getGlobalDepth, u.dirIds.length, u.numBuckets, u.find 9))
        = some (4, 16, 3, some 7) := by
  refine ⟨?_, by decide, by decide⟩
  intro fuel t k v hfull
  unfold EHT.insert
  rw [EHT.insertLoop_succ, if_pos hfull]

/-- Witness for `eht_upsert_on_full_bucket_splits` (conjunct 1 instantiated at
the concrete full-bucket state). -/
theorem eht_upsert_on_full_bucket_splits_witness :
    EHT.insert 10 s4Table 9 7
      = (EHT.insertLoop 9 (s4Table.splitStep 9) 9).map (fun u => u.upsert 9 7) :=
  eht_upsert_on_full_bucket_splits.1 9 s4Table 9 7 (by decide)

/-! ## B+-tree (`src/storage/index/b_plus_tree.cpp`,
`b_plus_tree_leaf_page.cpp`, `b_plus_tree_internal_page.cpp`)

Pages live behind the buffer pool; for the tree algorithms the pool is an
identity cache (every fetch succeeds, pins and latches are no-ops in the
single-threaded executions the claims describe), so the disk-resident tree is
modelled as a partial map from page id to node plus the monotonic page-id
counter of the pool's `AllocatePage`.  Keys (`GenericKey` with
`GenericComparator`) and record ids are modelled as `Int`; page ids are `Int`
with `INVALID_PAGE_ID = -1`.  A node stores its item array, its parent page id
and (for leaves) `next_page_id_`; `size_` is the array length and `max_size_`
is the tree-level `leaf_max_size_`/`internal_max_size_` installed by
`Init`. -/

inductive BTNode where
  | leaf (items : List (Int × Int)) (next : Int) (parent : Int)
  | internal (items : List (Int × Int)) (parent : Int)
deriving DecidableEq

def BTNode.isLeaf : BTNode → Bool
  | .leaf _ _ _ => true
  | .internal _ _ => false

def BTNode.parentId : BTNode → Int
  | .leaf _ _ p => p
  | .internal _ p => p

def BTNode.size : BTNode → Nat
  | .leaf items _ _ => items.length
  | .internal items _ => items.length

/-- `ValueAt(i)` of either page kind. -/
def BTNode.valueAt : BTNode → Nat → Int
  | .leaf items _ _, i => (items.getD i (0, 0)).2
  | .internal items _, i => (items.getD i (0, 0)).2

/-- `BPlusTreePage::IsRootPage` is declared outside `src/`.  Its call sites
(lines 337, 377, 399 and 452 of `b_plus_tree.cpp`) discriminate internal from
leaf pages — the root test at line 337 is already carried by
`root_page_id_ == GetPageId()`, and at lines 377/399/452 it selects the
internal-page merge/redistribute paths.  Modelled from the spec, which reads
line 337 as "the root internal with size 1": the predicate holds exactly for
internal pages. -/
def BTNode.isRootPage : BTNode → Bool
  | .leaf _ _ _ => false
  | .internal _ _ => true

structure BPT where
  pages : Int → Option BTNode
  rootPid : Int
  nextPid : Int
  leafMax : Nat
  internalMax : Nat

/-- A fresh tree: `root_page_id_ = INVALID_PAGE_ID`; `nextPid` is the buffer
pool's monotonic `next_page_id_`. -/
def BPT.empty (leafMax internalMax : Nat) : BPT :=
  { pages := fun _ => none, rootPid := -1, nextPid := 0,
    leafMax := leafMax, internalMax := internalMax }

/-- The shared binary-search loop of `KeyIndex` (leaf lines 167-178, internal
lines 49-65): move `l` past entries whose key is `< key`.  The interval
shrinks every iteration, so `items.length` fuel always suffices. -/
def keyIndexGo (items : List (Int × Int)) (key : Int) : Nat → Nat → Nat → Nat
  | 0, l, _ => l
  | fuel + 1, l, r =>
    if l < r then
      let mid := (l + r) / 2
      if (items.getD mid (0, 0)).1 < key then keyIndexGo items key fuel (mid + 1) r
      else keyIndexGo items key fuel l mid
    else l

/-- `BPlusTreeLeafPage::KeyIndex`: first index whose key is `≥ key`
(`l = 0, r = GetSize()`, early return `GetSize()` when `l >= r`). -/
def leafKeyIndex (items : List (Int × Int)) (key : Int) : Nat :=
  if items.length = 0 then items.length
  else keyIndexGo items key items.length 0 items.length

/-- `BPlusTreeInternalPage::KeyIndex` (`l = 1`). -/
def internalKeyIndex (items : List (Int × Int)) (key : Int) : Nat :=
  if items.length ≤ 1 then items.length
  else keyIndexGo items key items.length 1 items.length

/-- `BPlusTreeLeafPage::Insert(map, index)`: reject an equal key at `index`,
otherwise shift the tail right and place the entry. -/
def leafInsertAt (items : List (Int × Int)) (kv : Int × Int) (index : Nat) :
    Option (List (Int × Int)) :=
  if index < items.length ∧ (items.getD index (0, 0)).1 = kv.1 then none
  else some (items.take index ++ kv :: items.drop index)

/-- `BPlusTreeLeafPage::Delete`: locate by `KeyIndex`, fail unless the key
matches exactly, else shift the tail left. -/
def leafDelete (items : List (Int × Int)) (key : Int) : Option (List (Int × Int)) :=
  let index := leafKeyIndex items key
  if items.length ≤ index ∨ ¬ (items.getD index (0, 0)).1 = key then none
  else some (items.take index ++ items.drop (index + 1))

/-- `BPlusTreeInternalPage::Delete` (same shape, `KeyIndex` starts at 1). -/
def internalDelete (items : List (Int × Int)) (key : Int) : Option (List (Int × Int)) :=
  let index := internalKeyIndex items key
  if items.length ≤ index ∨ ¬ (items.getD index (0, 0)).1 = key then none
  else some (items.take index ++ items.drop (index + 1))

/-- `BPlusTreeInternalPage::Lookup`: scan entries 1..size-1; on the first key
strictly greater than `key` return the previous child, else the last child. -/
def internalLookupGo : List (Int × Int) → Int → Int → Int
  | [], _, prev => prev
  | kc :: rest, key, prev => if key < kc.1 then prev else internalLookupGo rest key kc.2

def internalLookup (items : List (Int × Int)) (key : Int) : Int :=
  match items with
  | [] => 0  -- size 0 would read array_[-1]; internal nodes always have ≥ 2 entries
  | first :: rest => internalLookupGo rest key first.2

/-- The backward insertion scan shared by `InternalPage::Insert` (lines
91-107) and the `temp` construction of `InternalPage::Split` (lines 196-212):
walk the entries 1..size-1 from the back, shifting entries with key `> key`
one slot right, and drop the new pair behind the first entry with key
`≤ key` (in front of everything when all are greater).  The argument list is
the reversed tail, mirroring the loop direction. -/
def insertPairFromBack : List (Int × Int) → Int × Int → List (Int × Int)
  | [], kv => [kv]
  | q :: qs, kv => if kv.1 < q.1 then q :: insertPairFromBack qs kv else kv :: q :: qs

/-- `BPlusTreeInternalPage::Insert`. -/
def internalInsert (items : List (Int × Int)) (kv : Int × Int) : List (Int × Int) :=
  match items with
  | [] => [kv]  -- never called on an empty internal page
  | h :: rest => h :: (insertPairFromBack rest.reverse kv).reverse

/-- `BPlusTreeInternalPage::InsertFirst`: shift everything right, then
`SetValueAt(0, value); SetKeyAt(1, key)` — entry 0 keeps its (dead) key,
the old entry 0's value becomes entry 1's value under the new key. -/
def internalInsertFirst (items : List (Int × Int)) (key value : Int) :
    List (Int × Int) :=
  match items with
  | [] => [(0, value)]  -- degenerate: the C++ would write size 1 with a dead slot
  | kv0 :: rest => (kv0.1, value) :: (key, kv0.2) :: rest

/-- `BPlusTreeInternalPage::DeleteFirst`. -/
def internalDeleteFirst (items : List (Int × Int)) : List (Int × Int) := items.tail

/-- `SetKeyAt(i, key)` on an item array. -/
def setKeyAt (items : List (Int × Int)) (i : Nat) (key : Int) : List (Int × Int) :=
  items.set i (key, (items.getD i (0, 0)).2)

/-- `BPlusTreeInternalPage::GetBrotherPage`: locate the child among the
values; prefer the left sibling (separator = key at the child's index), else
take the right sibling (separator = key at the sibling's index). -/
def getBrother (pItems : List (Int × Int)) (childPid : Int) : Int × Int × Bool :=
  let i := pItems.findIdx (fun p => p.2 == childPid)
  if 1 ≤ i then ((pItems.getD (i - 1) (0, 0)).2, ((pItems.getD i (0, 0)).1, true))
  else ((pItems.getD (i + 1) (0, 0)).2, ((pItems.getD (i + 1) (0, 0)).1, false))

/-- `SetParentPageId` through a fetched page (used on reparenting). -/
def BPT.setParent (t : BPT) (pid par : Int) : BPT :=
  match t.pages pid with
  | some (.leaf its nx _) => { t with pages := fupd t.pages pid (some (.leaf its nx par)) }
  | some (.internal its _) => { t with pages := fupd t.pages pid (some (.internal its par)) }
  | none => t

/-- `BPLUSTREE_TYPE::GetMaxSize` (lines 129-132): `leaf_max_size_ - 1` for a
leaf, `internal_max_size_` for an internal page. -/
def BPT.nodeMaxSize (t : BPT) : BTNode → Nat
  | .leaf _ _ _ => t.leafMax - 1
  | .internal _ _ => t.internalMax

/-- `GetMinSize` lives in `b_plus_tree_page.cpp`, which is not under `src/`.
Modelled from the spec ("the implementation exposes GetMinSize()"; standard
starter code returns `max_size_ / 2`, with `max_size_` installed by `Init` as
`leaf_max_size_` resp. `internal_max_size_`). -/
def BPT.nodeMinSize (t : BPT) : BTNode → Nat
  | .leaf _ _ _ => t.leafMax / 2
  | .internal _ _ => t.internalMax / 2

/-- `BPlusTreeInternalPage::Split(key, brother_page, parent_page, ...)`
(lines 190-235), called on the full parent node: build a `GetMaxSize()+1`
entry temporary holding the node's entries plus `(key, brother)` in sorted
position, reparent `brother` to this node, keep the lower
`(GetMaxSize()+1)/2` entries, and move the rest into the new sibling
(`parent_page` in the source's naming), reparenting every moved child. -/
def BPT.internalSplit (t : BPT) (selfPid : Int) (key : Int) (brotherPid newSibPid : Int) :
    BPT :=
  match t.pages selfPid with
  | some (.internal items par) =>
    let temp := match items with
      | [] => [(key, brotherPid)]
      | h :: rest => h :: (insertPairFromBack rest.reverse (key, brotherPid)).reverse
    let mid := (t.internalMax + 1) / 2
    let t1 := t.setParent brotherPid selfPid
    let movedItems := temp.drop mid
    let t2 := movedItems.foldl (fun acc p => acc.setParent p.2 newSibPid) t1
    let sibPar := match t2.pages newSibPid with
      | some (.internal _ sp) => sp
      | some (.leaf _ _ sp) => sp
      | none => -1
    { t2 with pages := fupd (fupd t2.pages selfPid (some (.internal (temp.take mid) par)))
                newSibPid (some (.internal movedItems sibPar)) }
  | _ => t

/-- `BPLUSTREE_TYPE::InsertInParent` (lines 238-278), with fuel for the
upward recursion. -/
def BPT.insertInParent : Nat → BPT → Int → Int → Int → BPT
  | 0, t, _, _, _ => t
  | fuel + 1, t, selfPid, key, brotherPid =>
    match t.pages selfPid with
    | none => t
    | some node =>
      if node.parentId = -1 then
        -- new root: children (self, brother), single separator `key`
        let newPid := t.nextPid
        let pg1 := fupd t.pages newPid
          (some (.internal [(0, selfPid), (key, brotherPid)] (-1)))
        let t1 := { t with nextPid := t.nextPid + 1, pages := pg1 }
        let t2 := (t1.setParent selfPid newPid).setParent brotherPid newPid
        { t2 with rootPid := newPid }
      else
        match t.pages node.parentId with
        | some (.internal pItems pPar) =>
          if pItems.length < t.internalMax then
            let pg1 := fupd t.pages node.parentId
              (some (.internal (internalInsert pItems (key, brotherPid)) pPar))
            let t1 := { t with pages := pg1 }
            t1.setParent brotherPid node.parentId
          else
            let sibPid := t.nextPid
            let pg1 := fupd t.pages sibPid (some (.internal [] (-1)))
            let t1 := { t with nextPid := t.nextPid + 1, pages := pg1 }
            let t2 := t1.internalSplit node.parentId key brotherPid sibPid
            let sepKey := match t2.pages sibPid with
              | some (.internal its _) => (its.getD 0 (0, 0)).1
              | _ => 0
            BPT.insertInParent fuel t2 node.parentId sepKey sibPid
        | _ => t

/-- The descent of `FindLeafPage` (single-threaded: the root re-check loop
breaks immediately and latches are no-ops). -/
def BPT.descend : Nat → BPT → Int → Int → Option Int
  | 0, _, _, _ => none
  | fuel + 1, t, key, pid =>
    match t.pages pid with
    | some (.leaf _ _ _) => some pid
    | some (.internal items _) => BPT.descend fuel t key (internalLookup items key)
    | none => none

/-- `FindLeafPage` (lines 65-127). -/
def BPT.findLeafPage (fuel : Nat) (t : BPT) (key : Int) : Option Int :=
  if t.rootPid = -1 then none else BPT.descend fuel t key t.rootPid

/-- `GetValue` (lines 33-62): descend to the leaf, `KeyIndex`, exact-match
check. -/
def BPT.getValue (fuel : Nat) (t : BPT) (key : Int) : Option Int :=
  if t.rootPid = -1 then none
  else
    match BPT.findLeafPage fuel t key with
    | none => none
    | some leafPid =>
      match t.pages leafPid with
      | some (.leaf items _ _) =>
        let index := leafKeyIndex items key
        if index < items.length ∧ (items.getD index (0, 0)).1 = key
        then some (items.getD index (0, 0)).2 else none
      | _ => none

/-- `Insert` (lines 188-236): bootstrap an empty tree with a fresh leaf root,
descend, insert into the leaf (duplicates rejected), and when the leaf's size
reaches `leaf_max_size_` split it (`Split` moves entries `size/2 ..
max_size-1`, i.e. the upper half, and splices the sibling chain) and insert
the sibling's first key into the parent. -/
def BPT.insert (fuel : Nat) (t : BPT) (key v : Int) : Bool × BPT :=
  let t0 := if t.rootPid = -1 then
      { t with nextPid := t.nextPid + 1
               pages := fupd t.pages t.nextPid (some (.leaf [] (-1) (-1)))
               rootPid := t.nextPid }
    else t
  match BPT.findLeafPage fuel t0 key with
  | none => (false, t0)
  | some leafPid =>
    match t0.pages leafPid with
    | some (.leaf items nx par) =>
      let index := leafKeyIndex items key
      match leafInsertAt items (key, v) index with
      | none => (false, t0)
      | some items' =>
        if items'.length = t0.leafMax then
          -- leaf split: at this point GetSize() = GetMaxSize() = leaf_max
          let broPid := t0.nextPid
          let mid := items'.length / 2
          let pg1 := fupd (fupd t0.pages leafPid
              (some (.leaf (items'.take mid) broPid par)))
            broPid (some (.leaf (items'.drop mid) nx (-1)))
          let t1 := { t0 with nextPid := broPid + 1, pages := pg1 }
          let sepKey := ((items'.drop mid).getD 0 (0, 0)).1
          (true, BPT.insertInParent fuel t1 leafPid sepKey broPid)
        else
          (true, { t0 with pages := fupd t0.pages leafPid (some (.leaf items' nx par)) })
    | _ => (false, t0)

/-- `DeleteEntry` (lines 304-502): delete from the node; handle the root
(tree emptied, or sole child promoted); otherwise on underflow merge with or
redistribute from a sibling obtained through the parent, recursing on a
merge. -/
def BPT.deleteEntry : Nat → BPT → Int → Int → BPT
  | 0, t, _, _ => t
  | fuel + 1, t, pid, key =>
    match t.pages pid with
    | none => t
    | some node =>
      let deleted : Option BTNode :=
        match node with
        | .leaf items nx par => (leafDelete items key).map (fun its => .leaf its nx par)
        | .internal items par => (internalDelete items key).map (fun its => .internal its par)
      match deleted with
      | none => t
      | some node' =>
        let t1 := { t with pages := fupd t.pages pid (some node') }
        if t1.rootPid = pid then
          if node'.isLeaf = true ∧ node'.size = 0 then
            -- the tree becomes empty (lines 328-335)
            { t1 with rootPid := -1, pages := fupd t1.pages pid none }
          else if node'.isRootPage = true ∧ node'.size = 1 then
            -- promote the sole child (lines 337-345)
            { t1 with rootPid := node'.valueAt 0, pages := fupd t1.pages pid none }
          else t1
        else
          if node'.size < t1.nodeMinSize node' then
            match t1.pages node'.parentId with
            | some (.internal pItems _) =>
              let gb := getBrother pItems pid
              match t1.pages gb.1 with
              | none => t1
              | some broNode =>
                if broNode.size + node'.size ≤ t1.nodeMaxSize node' then
                  -- merge into the left-hand neighbour (swap when the sibling is right)
                  let leftPid := if gb.2.2 then gb.1 else pid
                  let rightPid := if gb.2.2 then pid else gb.1
                  let leftNode := if gb.2.2 then broNode else node'
                  let rightNode := if gb.2.2 then node' else broNode
                  match leftNode, rightNode with
                  | .internal lits lpar, .internal rits _ =>
                    let appended := (gb.2.1, (rits.getD 0 (0, 0)).2) :: rits.tail
                    let pg2 := fupd (fupd t1.pages rightPid none) leftPid
                      (some (.internal (lits ++ appended) lpar))
                    let t2 := { t1 with pages := pg2 }
                    let t3 := (appended.map Prod.snd).foldl
                      (fun acc c => acc.setParent c leftPid) t2
                    BPT.deleteEntry fuel t3 node'.parentId gb.2.1
                  | .leaf lits _ lpar, .leaf rits rnx _ =>
                    let pg2 := fupd (fupd t1.pages rightPid none) leftPid
                      (some (.leaf (lits ++ rits) rnx lpar))
                    let t2 := { t1 with pages := pg2 }
                    BPT.deleteEntry fuel t2 node'.parentId gb.2.1
                  | _, _ => t1
                else
                  -- redistribute one entry across the boundary
                  match broNode, node' with
                  | .internal bits bpar, .internal cits cpar =>
                    if gb.2.2 then
                      -- left sibling: move its last entry to the front of here
                      let lastKey := (bits.getD (bits.length - 1) (0, 0)).1
                      let lastValue := (bits.getD (bits.length - 1) (0, 0)).2
                      let bits' := (internalDelete bits lastKey).getD bits
                      let pg2 := fupd (fupd t1.pages gb.1 (some (.internal bits' bpar))) pid
                        (some (.internal (internalInsertFirst cits gb.2.1 lastValue) cpar))
                      let t2 := { t1 with pages := pg2 }
                      let t3 := t2.setParent lastValue pid
                      let index := internalKeyIndex pItems gb.2.1
                      let ppar : Int := match t1.pages node'.parentId with
                        | some (.internal _ pp) => pp
                        | _ => -1
                      let pg3 := fupd t3.pages node'.parentId
                        (some (.internal (setKeyAt pItems index lastKey) ppar))
                      { t3 with pages := pg3 }
                    else
                      -- right sibling: move its first entry to the back of here
                      let firstValue := (bits.getD 0 (0, 0)).2
                      let firstKey := (bits.getD 1 (0, 0)).1
                      let pg2 := fupd (fupd t1.pages gb.1
                          (some (.internal (internalDeleteFirst bits) bpar))) pid
                        (some (.internal (internalInsert cits (gb.2.1, firstValue)) cpar))
                      let t2 := { t1 with pages := pg2 }
                      let t3 := t2.setParent firstValue pid
                      let index := internalKeyIndex pItems gb.2.1
                      let ppar : Int := match t1.pages node'.parentId with
                        | some (.internal _ pp) => pp
                        | _ => -1
                      let pg3 := fupd t3.pages node'.parentId
                        (some (.internal (setKeyAt pItems index firstKey) ppar))
                      { t3 with pages := pg3 }
                  | .leaf bits bnx bpar, .leaf cits cnx cpar =>
                    if gb.2.2 then
                      let lastKey := (bits.getD (bits.length - 1) (0, 0)).1
                      let lastValue := (bits.getD (bits.length - 1) (0, 0)).2
                      let bits' := (leafDelete bits lastKey).getD bits
                      let pg2 := fupd (fupd t1.pages gb.1 (some (.leaf bits' bnx bpar))) pid
                        (some (.leaf ((lastKey, lastValue) :: cits) cnx cpar))
                      let t2 := { t1 with pages := pg2 }
                      let index := internalKeyIndex pItems gb.2.1
                      let ppar : Int := match t1.pages node'.parentId with
                        | some (.internal _ pp) => pp
                        | _ => -1
                      let pg3 := fupd t2.pages node'.parentId
                        (some (.internal (setKeyAt pItems index lastKey) ppar))
                      { t2 with pages := pg3 }
                    else
                      let firstKey := (bits.getD 0 (0, 0)).1
                      let firstValue := (bits.getD 0 (0, 0)).2
                      let bits' := (leafDelete bits firstKey).getD bits
                      let pg2 := fupd (fupd t1.pages gb.1 (some (.leaf bits' bnx bpar))) pid
                        (some (.leaf (cits ++ [(firstKey, firstValue)]) cnx cpar))
                      let t2 := { t1 with pages := pg2 }
                      let index := internalKeyIndex pItems gb.2.1
                      let ppar : Int := match t1.pages node'.parentId with
                        | some (.internal _ pp) => pp
                        | _ => -1
                      let pg3 := fupd t2.pages node'.parentId
                        (some (.internal (setKeyAt pItems index ((bits'.getD 0 (0, 0)).1)) ppar))
                      { t2 with pages := pg3 }
                  | _, _ => t1
            | _ => t1
          else t1

/-- `Remove` (lines 290-302). -/
def BPT.remove (fuel : Nat) (t : BPT) (key : Int) : BPT :=
  if t.rootPid = -1 then t
  else
    match BPT.findLeafPage fuel t key with
    | none => t
    | some leafPid => BPT.deleteEntry fuel t leafPid key

/-! ### Claim C1: scenario S5 -/

/-- Scenario S5: `leaf_max = 3`, `internal_max = 3`, insert keys 1..5 in
order (record ids modelled as the keys themselves). -/
def s5Tree : BPT :=
  (BPT.insert 20 ((BPT.insert 20 ((BPT.insert 20 ((BPT.insert 20 ((BPT.insert 20
    (BPT.empty 3 3) 1 1).2) 2 2).2) 3 3).2) 4 4).2) 5 5).2

/-- The structure claimed by the spec's S5, stated from its words: a root
internal node with keys `[_, 3]` and exactly two children, the leaf `[1,2]`
followed in the sibling chain by the leaf `[3,4,5]`. -/
def c1ClaimedStructure (t : BPT) : Bool :=
  match t.pages t.rootPid with
  | some (.internal [(_, c0), (k1, c1)] _) =>
    decide (k1 = 3) &&
    (match t.pages c0, t.pages c1 with
     | some (.leaf l0 nx0 _), some (.leaf l1 _ _) =>
        decide (l0.map Prod.fst = [1, 2]) && decide (l1.map Prod.fst = [3, 4, 5])
          && decide (nx0 = c1)
     | _, _ => false)
  | _ => false

/-- **C1 counterexample**: the code splits a leaf as soon as its size reaches
`leaf_max_size_` and keeps only `size/2` entries, so inserting 1..5 yields a
three-level tree whose root children are internal pages — not the claimed
two leaves `[1,2]` and `[3,4,5]`. -/
theorem bpt_s5_structure_differs :
    c1ClaimedStructure s5Tree = false
    ∧ s5Tree.pages s5Tree.rootPid = some (.internal [(0, 2), (3, 5)] (-1))
    ∧ s5Tree.pages 2 = some (.internal [(0, 0), (2, 1)] 6) := by
  refine ⟨?_, ?_, ?_⟩ <;> decide

/-- **C1 amended**: inserting 1,2,3,4,5 in order produces a root internal
node with keys `[_, 3]` and exactly two children, which are internal nodes
over the leaf chain `[1] → [2] → [3] → [4,5]`; afterwards `GetValue(4)`
returns true with its value and `GetValue(6)` returns false. -/
theorem bpt_s5_scenario :
    s5Tree.rootPid = 6
    ∧ s5Tree.pages 6 = some (.internal [(0, 2), (3, 5)] (-1))
    ∧ s5Tree.pages 2 = some (.internal [(0, 0), (2, 1)] 6)
    ∧ s5Tree.pages 5 = some (.internal [(3, 3), (4, 4)] 6)
    ∧ s5Tree.pages 0 = some (.leaf [(1, 1)] 1 2)
    ∧ s5Tree.pages 1 = some (.leaf [(2, 2)] 3 2)
    ∧ s5Tree.pages 3 = some (.leaf [(3, 3)] 4 5)
    ∧ s5Tree.pages 4 = some (.leaf [(4, 4), (5, 5)] (-1) 5)
    ∧ BPT.getValue 20 s5Tree 4 = some 4
    ∧ BPT.getValue 20 s5Tree 6 = none := by
  refine ⟨?_, ?_, ?_, ?_, ?_, ?_, ?_, ?_, ?_, ?_⟩ <;> decide

/-! ### Claim C8: root handling on deletion -/

/-- **C8**: (i) removing a key that empties the root leaf makes the tree
empty — the root id reverts to `INVALID` (-1) and the old root page is
deleted; (ii) when a delete leaves the root internal node with size 1, its
sole remaining child is promoted to root and the old root page is deleted. -/
theorem bpt_root_delete_cases :
    (∀ (t : BPT) (key : Int) (fuel : Nat) (items : List (Int × Int)) (nx par : Int),
      t.rootPid ≠ -1 →
      t.pages t.rootPid = some (.leaf items nx par) →
      leafDelete items key = some [] →
      (BPT.remove (fuel + 1) t key).rootPid = -1
        ∧ (BPT.remove (fuel + 1) t key).pages t.rootPid = none)
    ∧ (∀ (t : BPT) (key : Int) (fuel : Nat) (pid : Int)
        (items its' : List (Int × Int)) (par : Int),
      t.rootPid = pid →
      t.pages pid = some (.internal items par) →
      internalDelete items key = some its' →
      its'.length = 1 →
      (BPT.deleteEntry (fuel + 1) t pid key).rootPid = (its'.getD 0 (0, 0)).2
        ∧ (BPT.deleteEntry (fuel + 1) t pid key).pages pid = none) := by
  constructor
  · intro t key fuel items nx par hroot hpages hdel
    unfold BPT.remove BPT.findLeafPage BPT.descend BPT.deleteEntry
    simp only [if_neg hroot, hpages, hdel, Option.map_some']
    simp [BTNode.isLeaf, BTNode.size, fupd_self]
  · intro t key fuel pid items its' par hroot hpages hdel hlen
    subst hroot
    unfold BPT.deleteEntry
    simp only [hpages, hdel, Option.map_some']
    simp [BTNode.isLeaf, BTNode.isRootPage, BTNode.size, BTNode.valueAt, hlen, fupd_self]

/-- Concrete single-leaf tree holding the key 7 (for the C8 witness). -/
def c8LeafTree : BPT := (BPT.insert 20 (BPT.empty 3 3) 7 7).2

/-- Concrete tree whose root is an internal node of size 2 with two leaf
children (for the C8 witness; deleting separator 3 shrinks it to size 1). -/
def c8InternalTree : BPT :=
  { pages := fupd (fupd (fupd (fun _ => none) 0 (some (.leaf [(1, 1), (2, 2)] 1 2)))
      1 (some (.leaf [(3, 3)] (-1) 2))) 2 (some (.internal [(0, 0), (3, 1)] (-1))),
    rootPid := 2, nextPid := 3, leafMax := 3, internalMax := 3 }

/-! ## Buffer pool manager (`src/buffer/buffer_pool_manager_instance.cpp`)

`pages_` becomes a total map from frame to page metadata (`page_id_`,
`pin_count_`, `is_dirty_` and the 4&#8201;KiB byte buffer, abstracted to one `Nat`
datum with `ResetMemory` writing 0); `page_table_` is the
`ExtendibleHashTable<page_id_t, frame_id_t>` used purely through its map
contract (`Find`/upsert-`Insert`/`Remove`), modelled as an association list
(the hash table itself is modelled and verified separately above);
`free_list_` takes from the back (`back()`/`pop_back()`) and `DeletePage`
returns frames to the front; the replacer is the LRU-K model above; `disk`
stands for the `DiskManager` (`WritePage`/`ReadPage`); `next_page_id_` is the
monotonic allocation counter.  `FlushAllPgsImp` (which re-enters the
non-recursive mutex) is not needed by any claim and is not modelled.  Page ids
are `Int` with `INVALID_PAGE_ID = -1`.  Frames handed to the replacer are
always `< pool_size = replacer_size_`, so the replacer's bound check never
fires and the total `...D` wrappers coincide with the source calls. -/

structure BPMPage where
  pageId : Int
  pinCount : Nat
  dirty : Bool
  data : Nat
deriving DecidableEq

structure BPM where
  poolSize : Nat
  pages : Nat → BPMPage
  pageTable : List (Int × Nat)
  freeList : List Nat
  replacer : LRUK
  nextPageId : Int
  disk : Int → Nat

/-- `Find` on the page table (first matching key). -/
def ptFind : List (Int × Nat) → Int → Option Nat
  | [], _ => none
  | p :: ps, q => if p.1 = q then some p.2 else ptFind ps q

/-- Upsert `Insert` on the page table. -/
def ptInsert : List (Int × Nat) → Int → Nat → List (Int × Nat)
  | [], q, fr => [(q, fr)]
  | p :: ps, q, fr => if p.1 = q then (q, fr) :: ps else p :: ptInsert ps q fr

/-- `Remove` on the page table. -/
def ptRemove : List (Int × Nat) → Int → List (Int × Nat)
  | [], _ => []
  | p :: ps, q => if p.1 = q then ps else p :: ptRemove ps q

/-- The constructor (lines 20-32): all frames in the free list (pushed back in
order 0..n-1), empty table, fresh replacer, zeroed pages. -/
def BPM.init (n k : Nat) : BPM :=
  { poolSize := n, pages := fun _ => ⟨-1, 0, false, 0⟩, pageTable := [],
    freeList := List.range n, replacer := LRUK.init n k, nextPageId := 0,
    disk := fun _ => 0 }

/-- The leading scan of `NewPgImp`/`FetchPgImp`: fail when every frame has a
positive pin count. -/
def BPM.allFramesPinned (s : BPM) : Bool :=
  (List.range s.poolSize).all (fun i => ¬ (s.pages i).pinCount = 0)

/-- Victim selection, the block shared verbatim by `NewPgImp` (lines 53-74)
and `FetchPgImp` (lines 112-129): take the back of the free list, else ask the
replacer to evict; write the victim back if dirty and clear its dirty flag,
reset the frame's bytes, and remove the old page id from the page table. -/
def BPM.pickFrame (s : BPM) : Option (Nat × BPM) :=
  match s.freeList.getLast? with
  | some fr => some (fr, { s with freeList := s.freeList.dropLast })
  | none =>
    match s.replacer.evict with
    | none => none
    | some (fr, rep) =>
      let pg := s.pages fr
      let diskW := if pg.dirty then fupd s.disk pg.pageId pg.data else s.disk
      some (fr, { s with replacer := rep, disk := diskW
                         pages := fupd s.pages fr ({ pg with dirty := false, data := 0 })
                         pageTable := ptRemove s.pageTable pg.pageId })

/-- `NewPgImp` (lines 40-88): fail when all frames are pinned, else obtain a
frame, allocate the next page id, publish it in the table, record the access,
pin the frame. -/
def BPM.newPage (s : BPM) : Option (Int × Nat) × BPM :=
  if s.allFramesPinned then (none, s)
  else
    match s.pickFrame with
    | none => (none, s)
    | some (fr, s1) =>
      let pid := s1.nextPageId
      let s2 := { s1 with
        nextPageId := pid + 1
        pageTable := ptInsert s1.pageTable pid fr
        replacer := (s1.replacer.recordAccessD fr).setEvictableD fr false
        pages := fupd s1.pages fr ({ s1.pages fr with pageId := pid, pinCount := 1 }) }
      (some (pid, fr), s2)

/-- `FetchPgImp` (lines 90-142): on a hit increment the pin and refresh the
replacer; on a miss check for a free or evictable frame, read the page from
disk into the frame and pin it. -/
def BPM.fetchPage (s : BPM) (pid : Int) : Option Nat × BPM :=
  match ptFind s.pageTable pid with
  | some fr =>
    let s' := { s with
      pages := fupd s.pages fr ({ s.pages fr with pinCount := (s.pages fr).pinCount + 1 })
      replacer := (s.replacer.recordAccessD fr).setEvictableD fr false }
    (some fr, s')
  | none =>
    if s.allFramesPinned then (none, s)
    else
      match s.pickFrame with
      | none => (none, s)
      | some (fr, s1) =>
        let s2 := { s1 with
          pageTable := ptInsert s1.pageTable pid fr
          pages := fupd s1.pages fr
            ({ s1.pages fr with pageId := pid, pinCount := 1, data := s1.disk pid })
          replacer := (s1.replacer.recordAccessD fr).setEvictableD fr false }
        (some fr, s2)

/-- `UnpinPgImp` (lines 145-165): false on a missing or invalid page or a
zero pin count; else set the dirty flag when asked (never clear it),
decrement the pin, and mark the frame evictable when the pin reaches 0. -/
def BPM.unpinPage (s : BPM) (pid : Int) (isDirty : Bool) : Bool × BPM :=
  match ptFind s.pageTable pid with
  | none => (false, s)
  | some fr =>
    if pid = -1 then (false, s)
    else
      let pg := s.pages fr
      if pg.pinCount = 0 then (false, s)
      else
        let pg1 := { pg with dirty := if isDirty then true else pg.dirty,
                             pinCount := pg.pinCount - 1 }
        let rep := if pg.pinCount - 1 = 0 then s.replacer.setEvictableD fr true
                   else s.replacer
        (true, { s with pages := fupd s.pages fr pg1, replacer := rep })

/-- `FlushPgImp` (lines 167-178). -/
def BPM.flushPage (s : BPM) (pid : Int) : Bool × BPM :=
  match ptFind s.pageTable pid with
  | none => (false, s)
  | some fr =>
    if pid = -1 then (false, s)
    else
      (true, { s with disk := fupd s.disk pid (s.pages fr).data
                      pages := fupd s.pages fr ({ s.pages fr with dirty := false }) })

/-- `DeletePgImp` (lines 187-212): true when absent, false when pinned, else
drop the frame from the replacer, reset the page, remove the table entry and
push the frame to the front of the free list. -/
def BPM.deletePage (s : BPM) (pid : Int) : Bool × BPM :=
  match ptFind s.pageTable pid with
  | none => (true, s)
  | some fr =>
    if pid = -1 then (true, s)
    else if 0 < (s.pages fr).pinCount then (false, s)
    else
      (true, { s with replacer := s.replacer.removeFrameD fr
                      pages := fupd s.pages fr ⟨-1, 0, false, 0⟩
                      pageTable := ptRemove s.pageTable pid
                      freeList := fr :: s.freeList })

/-- Buffer-pool states reachable through the public interface. -/
inductive BPM.Reach : BPM → Prop where
  | init (n k : Nat) : Reach (BPM.init n k)
  | newP {s : BPM} : Reach s → Reach (s.newPage).2
  | fetch {s : BPM} (pid : Int) : Reach s → Reach (s.fetchPage pid).2
  | unpin {s : BPM} (pid : Int) (d : Bool) : Reach s → Reach (s.unpinPage pid d).2
  | flush {s : BPM} (pid : Int) : Reach s → Reach (s.flushPage pid).2
  | del {s : BPM} (pid : Int) : Reach s → Reach (s.deletePage pid).2

/-! ### Association-list lemmas for the page table -/

theorem ptFind_ptInsert (l : List (Int × Nat)) (q : Int) (fr : Nat) (p : Int) :
    ptFind (ptInsert l q fr) p = if p = q then some fr else ptFind l p := by
  induction l with
  | nil =>
    by_cases hpq : p = q
    · simp [ptInsert, ptFind, hpq]
    · simp [ptInsert, ptFind, hpq, Ne.symm hpq]
  | cons a as ih =>
    by_cases haq : a.1 = q
    · by_cases hpq : p = q
      · simp [ptInsert, ptFind, haq, hpq]
      · -- p ≠ q: the find skips the replaced head; the old head key was q ≠ p
        have haq2 : ¬ a.1 = p := fun h => hpq ((h ▸ haq : p = q))
        simp [ptInsert, ptFind, haq, hpq, Ne.symm hpq, haq2]
    · by_cases hap : a.1 = p
      · have hpq : ¬ p = q := fun h => haq ((hap.trans h))
        simp [ptInsert, ptFind, haq, hap, hpq]
      · simp [ptInsert, ptFind, haq, hap, ih]

theorem ptFind_ptRemove_ne (l : List (Int × Nat)) (q p : Int) (hpq : p ≠ q) :
    ptFind (ptRemove l q) p = ptFind l p := by
  induction l with
  | nil => simp [ptRemove, ptFind]
  | cons a as ih =>
    by_cases haq : a.1 = q
    · have hap : ¬ a.1 = p := fun h => hpq ((h ▸ haq : p = q))
      simp [ptRemove, ptFind, haq, hap, Ne.symm hpq]
    · by_cases hap : a.1 = p
      · simp [ptRemove, ptFind, haq, hap, hpq]
      · simp [ptRemove, ptFind, haq, hap, hpq, ih]

theorem ptFind_ptRemove_self (l : List (Int × Nat)) (q : Int)
    (hnd : (l.map Prod.fst).Nodup) : ptFind (ptRemove l q) q = none := by
  induction l with
  | nil => simp [ptRemove, ptFind]
  | cons a as ih =>
    rw [List.map_cons, List.nodup_cons] at hnd
    by_cases haq : a.1 = q
    · -- the removed entry was the only one with this key
      cases has : ptFind as q with
      | none => simp [ptRemove, haq, has]
      | some fr =>
        exfalso
        apply hnd.1
        rw [haq]
        clear ih hnd
        induction as with
        | nil => simp [ptFind] at has
        | cons b bs ihb =>
          by_cases hbq : b.1 = q
          · simp [hbq]
          · rw [ptFind, if_neg hbq] at has
            simp [ihb has]
    · simp [ptRemove, ptFind, haq, ih hnd.2]

theorem ptInsert_keys_subset (l : List (Int × Nat)) (q : Int) (fr : Nat) :
    ∀ x ∈ (ptInsert l q fr).map Prod.fst, x ∈ l.map Prod.fst ∨ x = q := by
  induction l with
  | nil =>
    intro x hx
    simp [ptInsert] at hx
    simp [hx]
  | cons a as ih =>
    intro x hx
    by_cases haq : a.1 = q
    · rw [ptInsert, if_pos haq, List.map_cons] at hx
      rcases List.mem_cons.mp hx with h1 | h1
      · exact Or.inr h1
      · exact Or.inl (by simp [h1])
    · rw [ptInsert, if_neg haq, List.map_cons] at hx
      rcases List.mem_cons.mp hx with h1 | h1
      · exact Or.inl (by simp [h1])
      · rcases ih x h1 with h2 | h2
        · exact Or.inl (by simp at h2 ⊢; tauto)
        · exact Or.inr h2

theorem ptInsert_keys_nodup (l : List (Int × Nat)) (q : Int) (fr : Nat)
    (hnd : (l.map Prod.fst).Nodup) : ((ptInsert l q fr).map Prod.fst).Nodup := by
  induction l with
  | nil => simp [ptInsert]
  | cons a as ih =>
    rw [List.map_cons, List.nodup_cons] at hnd
    by_cases haq : a.1 = q
    · rw [ptInsert, if_pos haq, List.map_cons, List.nodup_cons]
      exact ⟨by rw [← haq]; exact hnd.1, hnd.2⟩
    · rw [ptInsert, if_neg haq, List.map_cons, List.nodup_cons]
      refine ⟨?_, ih hnd.2⟩
      intro hmem
      rcases ptInsert_keys_subset as q fr a.1 hmem with h1 | h1
      · exact hnd.1 h1
      · exact haq h1

theorem ptRemove_keys_sublist (l : List (Int × Nat)) (q : Int) :
    ((ptRemove l q).map Prod.fst).Sublist (l.map Prod.fst) := by
  induction l with
  | nil => simp [ptRemove]
  | cons a as ih =>
    by_cases haq : a.1 = q
    · rw [ptRemove, if_pos haq, List.map_cons]
      exact List.sublist_cons_self _ _
    · rw [ptRemove, if_neg haq, List.map_cons, List.map_cons]
      exact ih.cons₂ _

theorem ptRemove_keys_nodup (l : List (Int × Nat)) (q : Int)
    (hnd : (l.map Prod.fst).Nodup) : ((ptRemove l q).map Prod.fst).Nodup :=
  (ptRemove_keys_sublist l q).nodup hnd

/-! ### Effects of the total replacer wrappers -/

theorem LRUK.recordAccessD_eq {s : LRUK} {f : Nat} (h : ¬ s.numFrames < f) :
    (s.recordAccessD f).accessCount = fupd s.accessCount f (s.accessCount f + 1)
    ∧ (s.recordAccessD f).evictableFlag = s.evictableFlag
    ∧ (s.recordAccessD f).numFrames = s.numFrames := by
  by_cases h1 : s.accessCount f + 1 = s.k <;> by_cases h2 : s.k < s.accessCount f + 1 <;>
    simp [LRUK.recordAccessD, LRUK.recordAccess, h, h1, h2]

theorem LRUK.setEvictableD_count0 {s : LRUK} {f : Nat} {b : Bool}
    (h0 : s.accessCount f = 0) : s.setEvictableD f b = s := by
  by_cases h : s.numFrames < f <;> simp [LRUK.setEvictableD, LRUK.setEvictable, h, h0]

theorem LRUK.setEvictableD_pos {s : LRUK} {f : Nat} {b : Bool}
    (h : ¬ s.numFrames < f) (h0 : ¬ s.accessCount f = 0) :
    (s.setEvictableD f b).evictableFlag = fupd s.evictableFlag f b
    ∧ (s.setEvictableD f b).accessCount = s.accessCount
    ∧ (s.setEvictableD f b).numFrames = s.numFrames := by
  simp [LRUK.setEvictableD, LRUK.setEvictable, h, h0]

theorem LRUK.removeFrameD_count0 {s : LRUK} {f : Nat}
    (h0 : s.accessCount f = 0) : s.removeFrameD f = s := by
  by_cases h : s.numFrames < f <;> simp [LRUK.removeFrameD, LRUK.removeFrame, h, h0]

theorem LRUK.removeFrameD_pos {s : LRUK} {f : Nat}
    (h : ¬ s.numFrames < f) (h0 : ¬ s.accessCount f = 0) :
    (s.removeFrameD f).accessCount = fupd s.accessCount f 0
    ∧ (s.removeFrameD f).evictableFlag = fupd s.evictableFlag f false
    ∧ (s.removeFrameD f).numFrames = s.numFrames := by
  simp [LRUK.removeFrameD, LRUK.removeFrame, h, h0]

theorem LRUK.inv_recordAccessD {s : LRUK} (inv : s.Inv) (f : Nat) :
    (s.recordAccessD f).Inv := by
  unfold LRUK.recordAccessD
  cases h : s.recordAccess f with
  | error e => exact inv
  | ok t => exact LRUK.inv_recordAccess inv h

theorem LRUK.inv_setEvictableD {s : LRUK} (inv : s.Inv) (f : Nat) (b : Bool) :
    (s.setEvictableD f b).Inv := by
  unfold LRUK.setEvictableD
  cases h : s.setEvictable f b with
  | error e => exact inv
  | ok t => exact LRUK.inv_setEvictable inv h

theorem LRUK.inv_removeFrameD {s : LRUK} (inv : s.Inv) {f : Nat}
    (hguard : s.accessCount f = 0 ∨ s.evictableFlag f = true) :
    (s.removeFrameD f).Inv := by
  unfold LRUK.removeFrameD
  cases h : s.removeFrame f with
  | error e => exact inv
  | ok t => exact LRUK.inv_removeFrame inv hguard h

/-! ### The buffer-pool invariant -/

/-- Reachable buffer-pool states: the replacer invariant holds of the
embedded replacer (whose size is the pool size); the page table is a
functional map whose entries point at distinct in-range frames consistent
with the pages' own ids; frames are resident (in the table) xor free; free
frames are unpinned and unknown to the replacer; an unpinned resident frame
is always evictable and a pinned frame never is. -/
structure BPM.Inv (s : BPM) : Prop where
  replInv : s.replacer.Inv
  replSize : s.replacer.numFrames = s.poolSize
  tableKeysNodup : (s.pageTable.map Prod.fst).Nodup
  frameLt : ∀ pid fr, ptFind s.pageTable pid = some fr → fr < s.poolSize
  pidCons : ∀ pid fr, ptFind s.pageTable pid = some fr → (s.pages fr).pageId = pid
  residentNotFree : ∀ pid fr, ptFind s.pageTable pid = some fr → fr ∉ s.freeList
  residentCount : ∀ pid fr, ptFind s.pageTable pid = some fr →
    0 < s.replacer.accessCount fr
  freeFacts : ∀ fr ∈ s.freeList, fr < s.poolSize ∧ s.replacer.accessCount fr = 0
    ∧ (s.pages fr).pinCount = 0
  freeNodup : s.freeList.Nodup
  pinZeroEv : ∀ fr, fr < s.poolSize → (s.pages fr).pinCount = 0 →
    fr ∈ s.freeList ∨ s.replacer.evictableFlag fr = true
  pinPosNotEv : ∀ fr, 0 < (s.pages fr).pinCount → s.replacer.evictableFlag fr = false
  countLt : ∀ fr, 0 < s.replacer.accessCount fr → fr < s.poolSize

theorem BPM.inv_init_pool (n k : Nat) : (BPM.init n k).Inv := by
  constructor
  · exact LRUK.inv_init n k
  · rfl
  · simp [BPM.init]
  · intro pid fr h
    simp [BPM.init, ptFind] at h
  · intro pid fr h
    simp [BPM.init, ptFind] at h
  · intro pid fr h
    simp [BPM.init, ptFind] at h
  · intro pid fr h
    simp [BPM.init, ptFind] at h
  · intro fr h
    refine ⟨?_, rfl, rfl⟩
    simpa [BPM.init] using h
  · simp [BPM.init, List.nodup_range]
  · intro fr h1 _
    left
    simpa [BPM.init] using h1
  · intro fr h
    simp [BPM.init] at h
  · intro fr h
    simp [BPM.init, LRUK.init] at h

/-- Dissection of a successful `pickFrame`: the frame is in range, unpinned,
and the intermediate state keeps every invariant relation needed to publish a
new page in it (stated as the exact facts used by `NewPgImp`/`FetchPgImp`). -/
theorem BPM.pickFrame_some {s : BPM} (inv : s.Inv) {fr : Nat} {s1 : BPM}
    (h : s.pickFrame = some (fr, s1)) :
    fr < s.poolSize
    ∧ s1.poolSize = s.poolSize
    ∧ s1.nextPageId = s.nextPageId
    ∧ s1.replacer.Inv
    ∧ s1.replacer.numFrames = s.poolSize
    ∧ (s1.pageTable.map Prod.fst).Nodup
    ∧ (∀ pid fr', ptFind s1.pageTable pid = some fr' →
        fr' ≠ fr ∧ fr' < s.poolSize ∧ (s1.pages fr').pageId = pid
        ∧ fr' ∉ s1.freeList ∧ 0 < s1.replacer.accessCount fr')
    ∧ fr ∉ s1.freeList
    ∧ (∀ g ∈ s1.freeList, g < s.poolSize ∧ s1.replacer.accessCount g = 0
        ∧ (s1.pages g).pinCount = 0)
    ∧ s1.freeList.Nodup
    ∧ (∀ g, g < s.poolSize → g ≠ fr → (s1.pages g).pinCount = 0 →
        g ∈ s1.freeList ∨ s1.replacer.evictableFlag g = true)
    ∧ (∀ g, 0 < (s1.pages g).pinCount → s1.replacer.evictableFlag g = false)
    ∧ (∀ g, 0 < s1.replacer.accessCount g → g < s.poolSize)
    ∧ (∀ g, g ≠ fr → s1.pages g = s.pages g) := by
  unfold BPM.pickFrame at h
  cases hl : s.freeList.getLast? with
  | some fr0 =>
    rw [hl] at h
    injection h with h2
    injection h2 with hf hs1
    subst hf
    subst hs1
    have hne : s.freeList ≠ [] := by
      intro hnil
      rw [hnil] at hl
      simp at hl
    have hlast : s.freeList.getLast hne = fr0 := by
      have h4 := List.getLast?_eq_getLast s.freeList hne
      rw [hl] at h4
      injection h4 with h5
      exact h5.symm
    have hmem : fr0 ∈ s.freeList := hlast ▸ List.getLast_mem hne
    have hsplit : s.freeList.dropLast ++ [fr0] = s.freeList := by
      have h6 := List.dropLast_append_getLast hne
      rw [hlast] at h6
      exact h6
    have hnotdrop : fr0 ∉ s.freeList.dropLast := by
      intro hin
      have hnd := inv.freeNodup
      rw [← hsplit] at hnd
      rcases List.nodup_append.mp hnd with ⟨_, _, hdisj⟩
      exact hdisj hin (by simp)
    have hfacts := inv.freeFacts fr0 hmem
    refine ⟨hfacts.1, rfl, rfl, inv.replInv, inv.replSize, inv.tableKeysNodup,
      ?_, hnotdrop, ?_, ?_, ?_, ?_, ?_, ?_⟩
    · intro pid fr' hfind
      have h1 := inv.frameLt pid fr' hfind
      have h2 := inv.pidCons pid fr' hfind
      have h3 := inv.residentNotFree pid fr' hfind
      have h4 := inv.residentCount pid fr' hfind
      exact ⟨fun he => h3 (he ▸ hmem), h1, h2,
        fun hin => h3 ((List.dropLast_sublist _).subset hin), h4⟩
    · intro g hg
      exact inv.freeFacts g ((List.dropLast_sublist _).subset hg)
    · exact inv.freeNodup.sublist (List.dropLast_sublist _)
    · intro g hlt hgfr hpin
      rcases inv.pinZeroEv g hlt hpin with h1 | h1
      · left
        rw [← hsplit] at h1
        rcases List.mem_append.mp h1 with h2 | h2
        · exact h2
        · simp at h2
          exact absurd h2 hgfr
      · right
        exact h1
    · exact inv.pinPosNotEv
    · exact inv.countLt
    · intro g _
      rfl
  | none =>
    rw [hl] at h
    have hnil : s.freeList = [] := by
      cases hfl : s.freeList
      · rfl
      · rw [hfl] at hl
        simp at hl
    cases hev : s.replacer.evict with
    | none =>
      rw [hev] at h
      exact absurd h (by simp)
    | some pr =>
      rcases pr with ⟨fr0, rep⟩
      rw [hev] at h
      injection h with h2
      injection h2 with hf hs1
      subst hf
      subst hs1
      dsimp only
      rcases LRUK.evict_some hev with ⟨hflag, _, hcount, hflag', hnum, _, _⟩
      have hcpos : 0 < s.replacer.accessCount fr0 := inv.replInv.evCount fr0 hflag
      have hfrlt : fr0 < s.poolSize := inv.countLt fr0 hcpos
      have hrepInv : rep.Inv := LRUK.inv_evict inv.replInv hev
      refine ⟨hfrlt, rfl, rfl, hrepInv, by rw [hnum]; exact inv.replSize,
        ptRemove_keys_nodup _ _ inv.tableKeysNodup, ?_, by simp [hnil], ?_,
      by simp [hnil], ?_, ?_, ?_, ?_⟩
      · intro pid fr' hfind
        by_cases hpid : pid = (s.pages fr0).pageId
        · rw [hpid, ptFind_ptRemove_self _ _ inv.tableKeysNodup] at hfind
          cases hfind
        · rw [ptFind_ptRemove_ne _ _ _ hpid] at hfind
          have h1 := inv.frameLt pid fr' hfind
          have h2 := inv.pidCons pid fr' hfind
          have h4 := inv.residentCount pid fr' hfind
          have hne : fr' ≠ fr0 := by
            intro he
            subst he
            exact hpid h2.symm
          refine ⟨hne, h1, ?_, by simp [hnil], ?_⟩
          · rw [fupd_ne _ _ _ hne]
            exact h2
          · rw [hcount, fupd_ne _ _ _ hne]
            exact h4
      · intro g hg
        rw [hnil] at hg
        cases hg
      · intro g hlt hgfr hpin
        right
        rw [fupd_ne _ _ _ hgfr] at hpin
        rcases inv.pinZeroEv g hlt hpin with h1 | h1
        · rw [hnil] at h1
          cases h1
        · rw [hflag', fupd_ne _ _ _ hgfr]
          exact h1
      · intro g hpin
        by_cases hgfr : g = fr0
        · subst hgfr
          rw [hflag']
          exact fupd_self _ _ _
        · rw [fupd_ne _ _ _ hgfr] at hpin
          rw [hflag', fupd_ne _ _ _ hgfr]
          exact inv.pinPosNotEv g hpin
      · intro g hcnt
        rw [hcount] at hcnt
        by_cases hgfr : g = fr0
        · subst hgfr
          exact hfrlt
        · rw [fupd_ne _ _ _ hgfr] at hcnt
          exact inv.countLt g hcnt
      · intro g hgfr
        exact fupd_ne _ _ _ hgfr

/-- Publishing a freshly picked frame (`NewPgImp` lines 76-87 / `FetchPgImp`
lines 131-141): insert the new page id, record the access, un-mark
evictability, pin the page.  The invariant is restored for any page record
with pin count 1 carrying the new id. -/
theorem BPM.inv_publish {s : BPM} (inv : s.Inv) {fr : Nat} {s1 : BPM}
    (hpick : s.pickFrame = some (fr, s1)) (pid : Int) (pg' : BPMPage) (nid : Int)
    (hpin : pg'.pinCount = 1) (hpid : pg'.pageId = pid) :
    BPM.Inv { s1 with nextPageId := nid
                      pageTable := ptInsert s1.pageTable pid fr
                      replacer := (s1.replacer.recordAccessD fr).setEvictableD fr false
                      pages := fupd s1.pages fr pg' } := by
  obtain ⟨hfrlt, hpool, -, hrInv, hrSize, hndT, hTbl, hfrFree, hfree, hfreeNd,
    hpz, hppn, hcountLt, -⟩ := BPM.pickFrame_some inv hpick
  have hbound : ¬ s1.replacer.numFrames < fr := by
    rw [hrSize]
    omega
  obtain ⟨hc1, hf1, hn1⟩ := LRUK.recordAccessD_eq hbound
  have hbound2 : ¬ (s1.replacer.recordAccessD fr).numFrames < fr := by
    rw [hn1]
    exact hbound
  have hcne : ¬ (s1.replacer.recordAccessD fr).accessCount fr = 0 := by
    rw [hc1, fupd_self]
    omega
  obtain ⟨hf2, hc2, hn2⟩ := LRUK.setEvictableD_pos hbound2 hcne
  refine ⟨?_, ?_, ?_, ?_, ?_, ?_, ?_, ?_, ?_, ?_, ?_, ?_⟩ <;> dsimp only
  · exact LRUK.inv_setEvictableD (LRUK.inv_recordAccessD hrInv fr) fr false
  · rw [hn2, hn1, hrSize, hpool]
  · exact ptInsert_keys_nodup _ _ _ hndT
  · intro p fr' hfind
    rw [ptFind_ptInsert] at hfind
    rw [hpool]
    by_cases hp : p = pid
    · rw [if_pos hp] at hfind
      injection hfind with h1
      rw [← h1]
      exact hfrlt
    · rw [if_neg hp] at hfind
      exact (hTbl p fr' hfind).2.1
  · intro p fr' hfind
    rw [ptFind_ptInsert] at hfind
    by_cases hp : p = pid
    · rw [if_pos hp] at hfind
      injection hfind with h1
      rw [← h1, fupd_self, hpid, hp]
    · rw [if_neg hp] at hfind
      have h2 := hTbl p fr' hfind
      rw [fupd_ne _ _ _ h2.1]
      exact h2.2.2.1
  · intro p fr' hfind
    rw [ptFind_ptInsert] at hfind
    by_cases hp : p = pid
    · rw [if_pos hp] at hfind
      injection hfind with h1
      rw [← h1]
      exact hfrFree
    · rw [if_neg hp] at hfind
      exact (hTbl p fr' hfind).2.2.2.1
  · intro p fr' hfind
    rw [ptFind_ptInsert] at hfind
    rw [hc2, hc1]
    by_cases hp : p = pid
    · rw [if_pos hp] at hfind
      injection hfind with h1
      rw [← h1, fupd_self]
      omega
    · rw [if_neg hp] at hfind
      have h2 := hTbl p fr' hfind
      rw [fupd_ne _ _ _ h2.1]
      exact h2.2.2.2.2
  · intro g hg
    have hgfr : g ≠ fr := fun he => hfrFree (he ▸ hg)
    have h3 := hfree g hg
    refine ⟨by rw [hpool]; exact h3.1, ?_, ?_⟩
    · rw [hc2, hc1, fupd_ne _ _ _ hgfr]
      exact h3.2.1
    · rw [fupd_ne _ _ _ hgfr]
      exact h3.2.2
  · exact hfreeNd
  · intro g hglt hgpin
    have hgfr : g ≠ fr := by
      intro he
      rw [he, fupd_self, hpin] at hgpin
      omega
    rw [fupd_ne _ _ _ hgfr] at hgpin
    rcases hpz g (by rw [hpool] at hglt; exact hglt) hgfr hgpin with h1 | h1
    · exact Or.inl h1
    · right
      rw [hf2, hf1, fupd_ne _ _ _ hgfr]
      exact h1
  · intro g hgpin
    rw [hf2, hf1]
    by_cases hgfr : g = fr
    · rw [hgfr, fupd_self]
    · rw [fupd_ne _ _ _ hgfr]
      rw [fupd_ne _ _ _ hgfr] at hgpin
      exact hppn g hgpin
  · intro g hgcnt
    rw [hpool]
    rw [hc2, hc1] at hgcnt
    by_cases hgfr : g = fr
    · rw [hgfr]
      exact hfrlt
    · rw [fupd_ne _ _ _ hgfr] at hgcnt
      exact hcountLt g hgcnt

theorem BPM.inv_newPage {s : BPM} (inv : s.Inv) : ((s.newPage).2).Inv := by
  unfold BPM.newPage
  by_cases hap : s.allFramesPinned
  · rw [if_pos hap]
    exact inv
  rw [if_neg hap]
  cases hp : s.pickFrame with
  | none => exact inv
  | some pr =>
    rcases pr with ⟨fr, s1⟩
    dsimp only
    exact BPM.inv_publish inv hp s1.nextPageId _ _ rfl rfl

theorem BPM.inv_fetchPage {s : BPM} (inv : s.Inv) (pid : Int) :
    ((s.fetchPage pid).2).Inv := by
  unfold BPM.fetchPage
  cases hfind : ptFind s.pageTable pid with
  | some fr =>
    dsimp only
    have hfrlt := inv.frameLt pid fr hfind
    have hcnt := inv.residentCount pid fr hfind
    have hbound : ¬ s.replacer.numFrames < fr := by
      rw [inv.replSize]
      omega
    obtain ⟨hc1, hf1, hn1⟩ := LRUK.recordAccessD_eq hbound
    have hbound2 : ¬ (s.replacer.recordAccessD fr).numFrames < fr := by
      rw [hn1]
      exact hbound
    have hcne : ¬ (s.replacer.recordAccessD fr).accessCount fr = 0 := by
      rw [hc1, fupd_self]
      omega
    obtain ⟨hf2, hc2, hn2⟩ := LRUK.setEvictableD_pos hbound2 hcne
    refine ⟨?_, ?_, ?_, ?_, ?_, ?_, ?_, ?_, ?_, ?_, ?_, ?_⟩ <;> dsimp only
    · exact LRUK.inv_setEvictableD (LRUK.inv_recordAccessD inv.replInv fr) fr false
    · rw [hn2, hn1, inv.replSize]
    · exact inv.tableKeysNodup
    · exact inv.frameLt
    · intro p fr' hfind'
      by_cases hgfr : fr' = fr
      · rw [hgfr, fupd_self]
        rw [hgfr] at hfind'
        simpa using inv.pidCons p fr hfind'
      · rw [fupd_ne _ _ _ hgfr]
        exact inv.pidCons p fr' hfind'
    · exact inv.residentNotFree
    · intro p fr' hfind'
      rw [hc2, hc1]
      by_cases hgfr : fr' = fr
      · rw [hgfr, fupd_self]
        omega
      · rw [fupd_ne _ _ _ hgfr]
        exact inv.residentCount p fr' hfind'
    · intro g hg
      have hgfr : g ≠ fr := fun he => (inv.residentNotFree pid fr hfind) (he ▸ hg)
      have h3 := inv.freeFacts g hg
      refine ⟨h3.1, ?_, ?_⟩
      · rw [hc2, hc1, fupd_ne _ _ _ hgfr]
        exact h3.2.1
      · rw [fupd_ne _ _ _ hgfr]
        exact h3.2.2
    · exact inv.freeNodup
    · intro g hglt hgpin
      have hgfr : g ≠ fr := by
        intro he
        rw [he, fupd_self] at hgpin
        simp at hgpin
      rw [fupd_ne _ _ _ hgfr] at hgpin
      rcases inv.pinZeroEv g hglt hgpin with h1 | h1
      · exact Or.inl h1
      · right
        rw [hf2, hf1, fupd_ne _ _ _ hgfr]
        exact h1
    · intro g hgpin
      rw [hf2, hf1]
      by_cases hgfr : g = fr
      · rw [hgfr, fupd_self]
      · rw [fupd_ne _ _ _ hgfr]
        rw [fupd_ne _ _ _ hgfr] at hgpin
        exact inv.pinPosNotEv g hgpin
    · intro g hgcnt
      rw [hc2, hc1] at hgcnt
      by_cases hgfr : g = fr
      · rw [hgfr]
        exact hfrlt
      · rw [fupd_ne _ _ _ hgfr] at hgcnt
        exact inv.countLt g hgcnt
  | none =>
    by_cases hap : s.allFramesPinned
    · rw [if_pos hap]
      exact inv
    rw [if_neg hap]
    cases hp : s.pickFrame with
    | none => exact inv
    | some pr =>
      rcases pr with ⟨fr, s1⟩
      dsimp only
      exact BPM.inv_publish inv hp pid _ s1.nextPageId rfl rfl

theorem BPM.inv_unpinPage {s : BPM} (inv : s.Inv) (pid : Int) (d : Bool) :
    ((s.unpinPage pid d).2).Inv := by
  unfold BPM.unpinPage
  cases hfind : ptFind s.pageTable pid with
  | none => exact inv
  | some fr =>
    dsimp only
    by_cases hpid : pid = -1
    · rw [if_pos hpid]
      exact inv
    rw [if_neg hpid]
    by_cases hz : (s.pages fr).pinCount = 0
    · rw [if_pos hz]
      exact inv
    rw [if_neg hz]
    dsimp only
    have hfrlt := inv.frameLt pid fr hfind
    have hcnt := inv.residentCount pid fr hfind
    have hbound : ¬ s.replacer.numFrames < fr := by
      rw [inv.replSize]
      omega
    -- the replacer either gains evictability of `fr` (pin hits 0) or is untouched
    have hrep : ∀ g, ((if (s.pages fr).pinCount - 1 = 0
          then s.replacer.setEvictableD fr true else s.replacer)).accessCount g
        = s.replacer.accessCount g := by
      intro g
      by_cases hz2 : (s.pages fr).pinCount - 1 = 0
      · rw [if_pos hz2, (LRUK.setEvictableD_pos hbound (by omega)).2.1]
      · rw [if_neg hz2]
    have hrepF : ∀ g, g ≠ fr → ((if (s.pages fr).pinCount - 1 = 0
          then s.replacer.setEvictableD fr true else s.replacer)).evictableFlag g
        = s.replacer.evictableFlag g := by
      intro g hgfr
      by_cases hz2 : (s.pages fr).pinCount - 1 = 0
      · rw [if_pos hz2, (LRUK.setEvictableD_pos hbound (by omega)).1,
          fupd_ne _ _ _ hgfr]
      · rw [if_neg hz2]
    have hrepN : ((if (s.pages fr).pinCount - 1 = 0
          then s.replacer.setEvictableD fr true else s.replacer)).numFrames
        = s.replacer.numFrames := by
      by_cases hz2 : (s.pages fr).pinCount - 1 = 0
      · rw [if_pos hz2, (LRUK.setEvictableD_pos hbound (by omega)).2.2]
      · rw [if_neg hz2]
    refine ⟨?_, ?_, ?_, ?_, ?_, ?_, ?_, ?_, ?_, ?_, ?_, ?_⟩ <;> dsimp only
    · by_cases hz2 : (s.pages fr).pinCount - 1 = 0
      · rw [if_pos hz2]
        exact LRUK.inv_setEvictableD inv.replInv fr true
      · rw [if_neg hz2]
        exact inv.replInv
    · rw [hrepN, inv.replSize]
    · exact inv.tableKeysNodup
    · exact inv.frameLt
    · intro p fr' hfind'
      by_cases hgfr : fr' = fr
      · rw [hgfr, fupd_self]
        rw [hgfr] at hfind'
        simpa using inv.pidCons p fr hfind'
      · rw [fupd_ne _ _ _ hgfr]
        exact inv.pidCons p fr' hfind'
    · exact inv.residentNotFree
    · intro p fr' hfind'
      rw [hrep]
      exact inv.residentCount p fr' hfind'
    · intro g hg
      have hgfr : g ≠ fr := fun he => (inv.residentNotFree pid fr hfind) (he ▸ hg)
      have h3 := inv.freeFacts g hg
      refine ⟨h3.1, ?_, ?_⟩
      · rw [hrep]
        exact h3.2.1
      · rw [fupd_ne _ _ _ hgfr]
        exact h3.2.2
    · exact inv.freeNodup
    · intro g hglt hgpin
      by_cases hgfr : g = fr
      · -- the unpinned frame itself: its pin reached 0, so it was marked evictable
        subst hgfr
        rw [fupd_self] at hgpin
        right
        rw [if_pos hgpin, (LRUK.setEvictableD_pos hbound (by omega)).1, fupd_self]
      · rw [fupd_ne _ _ _ hgfr] at hgpin
        rcases inv.pinZeroEv g hglt hgpin with h1 | h1
        · exact Or.inl h1
        · right
          rw [hrepF g hgfr]
          exact h1
    · intro g hgpin
      by_cases hgfr : g = fr
      · subst hgfr
        rw [fupd_self] at hgpin
        have hz2 : ¬ (s.pages g).pinCount - 1 = 0 := by
          dsimp only at hgpin
          omega
        rw [if_neg hz2]
        exact inv.pinPosNotEv g (by omega)
      · rw [fupd_ne _ _ _ hgfr] at hgpin
        rw [hrepF g hgfr]
        exact inv.pinPosNotEv g hgpin
    · intro g hgcnt
      rw [hrep] at hgcnt
      exact inv.countLt g hgcnt

theorem BPM.inv_flushPage {s : BPM} (inv : s.Inv) (pid : Int) :
    ((s.flushPage pid).2).Inv := by
  unfold BPM.flushPage
  cases hfind : ptFind s.pageTable pid with
  | none => exact inv
  | some fr =>
    dsimp only
    by_cases hpid : pid = -1
    · rw [if_pos hpid]
      exact inv
    rw [if_neg hpid]
    refine ⟨inv.replInv, inv.replSize, inv.tableKeysNodup, inv.frameLt, ?_,
      inv.residentNotFree, inv.residentCount, ?_, inv.freeNodup, ?_, ?_,
      inv.countLt⟩ <;> dsimp only
    · intro p fr' hfind'
      by_cases hgfr : fr' = fr
      · rw [hgfr, fupd_self]
        rw [hgfr] at hfind'
        simpa using inv.pidCons p fr hfind'
      · rw [fupd_ne _ _ _ hgfr]
        exact inv.pidCons p fr' hfind'
    · intro g hg
      have hgfr : g ≠ fr := fun he => (inv.residentNotFree pid fr hfind) (he ▸ hg)
      have h3 := inv.freeFacts g hg
      refine ⟨h3.1, h3.2.1, ?_⟩
      rw [fupd_ne _ _ _ hgfr]
      exact h3.2.2
    · intro g hglt hgpin
      by_cases hgfr : g = fr
      · rw [hgfr, fupd_self] at hgpin
        exact inv.pinZeroEv g hglt (by rw [hgfr]; exact hgpin)
      · rw [fupd_ne _ _ _ hgfr] at hgpin
        exact inv.pinZeroEv g hglt hgpin
    · intro g hgpin
      by_cases hgfr : g = fr
      · rw [hgfr, fupd_self] at hgpin
        exact inv.pinPosNotEv g (by rw [hgfr]; exact hgpin)
      · rw [fupd_ne _ _ _ hgfr] at hgpin
        exact inv.pinPosNotEv g hgpin

theorem BPM.inv_deletePage {s : BPM} (inv : s.Inv) (pid : Int) :
    ((s.deletePage pid).2).Inv := by
  unfold BPM.deletePage
  cases hfind : ptFind s.pageTable pid with
  | none => exact inv
  | some fr =>
    dsimp only
    by_cases hpid : pid = -1
    · rw [if_pos hpid]
      exact inv
    rw [if_neg hpid]
    by_cases hpin : 0 < (s.pages fr).pinCount
    · rw [if_pos hpin]
      exact inv
    rw [if_neg hpin]
    dsimp only
    have hfrlt := inv.frameLt pid fr hfind
    have hcnt := inv.residentCount pid fr hfind
    have hnotfree := inv.residentNotFree pid fr hfind
    have hflag : s.replacer.evictableFlag fr = true := by
      rcases inv.pinZeroEv fr hfrlt (by omega) with h1 | h1
      · exact absurd h1 hnotfree
      · exact h1
    have hbound : ¬ s.replacer.numFrames < fr := by
      rw [inv.replSize]
      omega
    obtain ⟨hc1, hf1, hn1⟩ := LRUK.removeFrameD_pos hbound (by omega)
    refine ⟨?_, ?_, ?_, ?_, ?_, ?_, ?_, ?_, ?_, ?_, ?_, ?_⟩ <;> dsimp only
    · exact LRUK.inv_removeFrameD inv.replInv (Or.inr hflag)
    · rw [hn1, inv.replSize]
    · exact ptRemove_keys_nodup _ _ inv.tableKeysNodup
    · intro p fr' hfind'
      by_cases hp : p = pid
      · rw [hp, ptFind_ptRemove_self _ _ inv.tableKeysNodup] at hfind'
        cases hfind'
      · rw [ptFind_ptRemove_ne _ _ _ hp] at hfind'
        exact inv.frameLt p fr' hfind'
    · intro p fr' hfind'
      by_cases hp : p = pid
      · rw [hp, ptFind_ptRemove_self _ _ inv.tableKeysNodup] at hfind'
        cases hfind'
      · rw [ptFind_ptRemove_ne _ _ _ hp] at hfind'
        have h2 := inv.pidCons p fr' hfind'
        have hgfr : fr' ≠ fr := by
          intro he
          apply hp
          rw [← h2, he]
          exact (inv.pidCons pid fr hfind).symm ▸ rfl
        rw [fupd_ne _ _ _ hgfr]
        exact h2
    · intro p fr' hfind'
      by_cases hp : p = pid
      · rw [hp, ptFind_ptRemove_self _ _ inv.tableKeysNodup] at hfind'
        cases hfind'
      · rw [ptFind_ptRemove_ne _ _ _ hp] at hfind'
        have h2 := inv.pidCons p fr' hfind'
        have hgfr : fr' ≠ fr := by
          intro he
          apply hp
          rw [← h2, he]
          exact (inv.pidCons pid fr hfind).symm ▸ rfl
        intro hmem
        rcases List.mem_cons.mp hmem with h3 | h3
        · exact hgfr h3
        · exact inv.residentNotFree p fr' hfind' h3
    · intro p fr' hfind'
      by_cases hp : p = pid
      · rw [hp, ptFind_ptRemove_self _ _ inv.tableKeysNodup] at hfind'
        cases hfind'
      · rw [ptFind_ptRemove_ne _ _ _ hp] at hfind'
        have h2 := inv.pidCons p fr' hfind'
        have hgfr : fr' ≠ fr := by
          intro he
          apply hp
          rw [← h2, he]
          exact (inv.pidCons pid fr hfind).symm ▸ rfl
        rw [hc1, fupd_ne _ _ _ hgfr]
        exact inv.residentCount p fr' hfind'
    · intro g hg
      rcases List.mem_cons.mp hg with h3 | h3
      · subst h3
        refine ⟨hfrlt, ?_, ?_⟩
        · rw [hc1, fupd_self]
        · rw [fupd_self]
      · have hgfr : g ≠ fr := fun he => hnotfree (he ▸ h3)
        have h4 := inv.freeFacts g h3
        refine ⟨h4.1, ?_, ?_⟩
        · rw [hc1, fupd_ne _ _ _ hgfr]
          exact h4.2.1
        · rw [fupd_ne _ _ _ hgfr]
          exact h4.2.2
    · exact List.nodup_cons.mpr ⟨hnotfree, inv.freeNodup⟩
    · intro g hglt hgpin
      by_cases hgfr : g = fr
      · left
        rw [hgfr]
        exact List.mem_cons_self _ _
      · rw [fupd_ne _ _ _ hgfr] at hgpin
        rcases inv.pinZeroEv g hglt hgpin with h1 | h1
        · exact Or.inl (List.mem_cons_of_mem _ h1)
        · right
          rw [hf1, fupd_ne _ _ _ hgfr]
          exact h1
    · intro g hgpin
      by_cases hgfr : g = fr
      · rw [hgfr, fupd_self] at hgpin
        simp at hgpin
      · rw [fupd_ne _ _ _ hgfr] at hgpin
        rw [hf1, fupd_ne _ _ _ hgfr]
        exact inv.pinPosNotEv g hgpin
    · intro g hgcnt
      rw [hc1] at hgcnt
      by_cases hgfr : g = fr
      · rw [hgfr]
        exact hfrlt
      · rw [fupd_ne _ _ _ hgfr] at hgcnt
        exact inv.countLt g hgcnt

/-- Every reachable buffer-pool state satisfies the invariant. -/
theorem BPM.reach_inv_pool {s : BPM} (h : s.Reach) : s.Inv := by
  induction h with
  | init n k => exact BPM.inv_init_pool n k
  | newP _ ih => exact BPM.inv_newPage ih
  | fetch pid _ ih => exact BPM.inv_fetchPage ih pid
  | unpin pid d _ ih => exact BPM.inv_unpinPage ih pid d
  | flush pid _ ih => exact BPM.inv_flushPage ih pid
  | del pid _ ih => exact BPM.inv_deletePage ih pid

theorem BPM.allFramesPinned_true_iff (s : BPM) :
    s.allFramesPinned = true ↔ ∀ fr < s.poolSize, 0 < (s.pages fr).pinCount := by
  unfold BPM.allFramesPinned
  rw [List.all_eq_true]
  constructor
  · intro h fr hlt
    have := h fr (List.mem_range.mpr hlt)
    simp at this
    omega
  · intro h x hx
    have := h x (List.mem_range.mp hx)
    simp
    omega

/-- **C3**: `NewPage` hands out a page pinned once under a fresh id from the
monotonic counter and fails exactly when every frame is pinned; on the miss
path both `NewPage` and `FetchPage` draw from the shared victim selection,
which prefers the free list and otherwise evicts through the replacer,
writing a dirty victim back first, clearing its dirty flag, resetting the
frame's bytes and removing the old page id from the page table. -/
theorem bpm_newpage_and_miss_path (s : BPM) (hs : BPM.Reach s) :
    ((s.newPage).1 = none ↔ ∀ fr < s.poolSize, 0 < (s.pages fr).pinCount)
    ∧ (∀ pid fr, (s.newPage).1 = some (pid, fr) →
        pid = s.nextPageId
        ∧ ((s.newPage).2).nextPageId = s.nextPageId + 1
        ∧ (((s.newPage).2).pages fr).pinCount = 1
        ∧ (((s.newPage).2).pages fr).pageId = pid
        ∧ ptFind ((s.newPage).2).pageTable pid = some fr)
    ∧ (∀ fr s1, s.pickFrame = some (fr, s1) →
        (s.freeList ≠ [] → s.freeList.getLast? = some fr
          ∧ s1 = { s with freeList := s.freeList.dropLast })
        ∧ (s.freeList = [] → ∃ rep, s.replacer.evict = some (fr, rep)
          ∧ ((s.pages fr).dirty = true →
              s1.disk ((s.pages fr).pageId) = (s.pages fr).data)
          ∧ (s1.pages fr).dirty = false
          ∧ (s1.pages fr).data = 0
          ∧ ptFind s1.pageTable ((s.pages fr).pageId) = none))
    ∧ (∀ pid, ptFind s.pageTable pid = none →
        (s.fetchPage pid).1
          = if s.allFramesPinned then none else (s.pickFrame).map Prod.fst) := by
  have inv := BPM.reach_inv_pool hs
  refine ⟨⟨?_, ?_⟩, ?_, ?_, ?_⟩
  · -- NewPage failed: every frame must be pinned
    intro hnone fr hlt
    by_contra hpin
    have hz : (s.pages fr).pinCount = 0 := by omega
    unfold BPM.newPage at hnone
    by_cases hap : s.allFramesPinned
    · have := (BPM.allFramesPinned_true_iff s).mp hap fr hlt
      omega
    rw [if_neg hap] at hnone
    cases hp : s.pickFrame with
    | some pr =>
      rw [hp] at hnone
      rcases pr with ⟨fr0, s1⟩
      simp at hnone
    | none =>
      unfold BPM.pickFrame at hp
      cases hl : s.freeList.getLast? with
      | some fr0 =>
        rw [hl] at hp
        simp at hp
      | none =>
        rw [hl] at hp
        have hnil : s.freeList = [] := by
          cases hfl : s.freeList
          · rfl
          · rw [hfl] at hl
            simp at hl
        cases hev : s.replacer.evict with
        | some pr =>
          rw [hev] at hp
          simp at hp
        | none =>
          have hallf := (LRUK.evict_none_iff inv.replInv).mp hev
          rcases inv.pinZeroEv fr hlt hz with h1 | h1
          · rw [hnil] at h1
            cases h1
          · rw [hallf fr] at h1
            cases h1
  · -- every frame pinned: the leading scan fails
    intro hall
    unfold BPM.newPage
    rw [if_pos ((BPM.allFramesPinned_true_iff s).mpr hall)]
  · -- success: fresh id from the counter, pinned once, published
    intro pid fr h
    unfold BPM.newPage at h ⊢
    by_cases hap : s.allFramesPinned
    · rw [if_pos hap] at h
      cases h
    rw [if_neg hap] at h ⊢
    cases hp : s.pickFrame with
    | none =>
      rw [hp] at h
      cases h
    | some pr =>
      rcases pr with ⟨fr0, s1⟩
      rw [hp] at h
      dsimp only at h ⊢
      injection h with h2
      injection h2 with hpid hfr
      subst hpid
      subst hfr
      obtain ⟨-, -, hnid, -⟩ := BPM.pickFrame_some inv hp
      refine ⟨hnid, by rw [hnid], ?_, ?_, ?_⟩
      · rw [fupd_self]
      · rw [fupd_self]
      · rw [ptFind_ptInsert, if_pos rfl]
  · -- victim selection
    intro fr s1 h
    unfold BPM.pickFrame at h
    cases hl : s.freeList.getLast? with
    | some fr0 =>
      rw [hl] at h
      injection h with h2
      injection h2 with hf hs1
      subst hf
      subst hs1
      constructor
      · intro _
        exact ⟨rfl, rfl⟩
      · intro hnil
        rw [hnil] at hl
        simp at hl
    | none =>
      rw [hl] at h
      have hnil : s.freeList = [] := by
        cases hfl : s.freeList
        · rfl
        · rw [hfl] at hl
          simp at hl
      constructor
      · intro hne
        exact absurd hnil hne
      intro _
      cases hev : s.replacer.evict with
      | none =>
        rw [hev] at h
        cases h
      | some pr =>
        rcases pr with ⟨fr0, rep⟩
        rw [hev] at h
        injection h with h2
        injection h2 with hf hs1
        subst hf
        subst hs1
        refine ⟨rep, rfl, ?_, ?_, ?_, ?_⟩ <;> dsimp only
        · intro hd
          rw [if_pos hd, fupd_self]
        · rw [fupd_self]
        · rw [fupd_self]
        · exact ptFind_ptRemove_self _ _ inv.tableKeysNodup
  · -- FetchPage on a miss routes through the same victim selection
    intro pid hfind
    unfold BPM.fetchPage
    rw [hfind]
    by_cases hap : s.allFramesPinned
    · rw [if_pos hap, if_pos hap]
    rw [if_neg hap, if_neg hap]
    cases hp : s.pickFrame with
    | none => rfl
    | some pr =>
      rcases pr with ⟨fr, s1⟩
      rfl

/-- The S3-style concrete state: pool of 2 frames, two pages allocated,
page 0 unpinned. -/
def bpmS3 : BPM := ((((BPM.init 2 2).newPage).2.newPage).2.unpinPage 0 false).2

theorem bpmS3_reach : bpmS3.Reach :=
  .unpin 0 false (.newP (.newP (.init 2 2)))

/-- Witness for `bpm_newpage_and_miss_path`: on `bpmS3` the next `NewPage`
succeeds by evicting the unpinned frame and allocates page id 2. -/
theorem bpm_newpage_and_miss_path_witness :
    (2 : Int) = bpmS3.nextPageId
    ∧ ((bpmS3.newPage).2).nextPageId = bpmS3.nextPageId + 1
    ∧ (((bpmS3.newPage).2).pages 1).pinCount = 1
    ∧ (((bpmS3.newPage).2).pages 1).pageId = 2
    ∧ ptFind ((bpmS3.newPage).2).pageTable 2 = some 1 :=
  (bpm_newpage_and_miss_path bpmS3 bpmS3_reach).2.1 2 1 (by decide)

/-- **C4**: `UnpinPage` succeeds exactly on a valid resident page with a
positive pin count (and changes nothing on failure); on success it decrements
the pin, ors in the dirty flag (true sticks, false never clears), and the
frame is evictable afterwards exactly when the pin reached 0. -/
theorem bpm_unpin_spec (s : BPM) (hs : BPM.Reach s) (pid : Int) (d : Bool) :
    ((s.unpinPage pid d).1 = true
      ↔ ∃ fr, ptFind s.pageTable pid = some fr ∧ pid ≠ -1
          ∧ 0 < (s.pages fr).pinCount)
    ∧ ((s.unpinPage pid d).1 = false → (s.unpinPage pid d).2 = s)
    ∧ (∀ fr, ptFind s.pageTable pid = some fr → pid ≠ -1 →
        0 < (s.pages fr).pinCount →
        ((s.unpinPage pid d).2.pages fr).pinCount = (s.pages fr).pinCount - 1
        ∧ ((s.unpinPage pid d).2.pages fr).dirty = ((s.pages fr).dirty || d)
        ∧ ((s.unpinPage pid d).2.replacer.evictableFlag fr = true
            ↔ ((s.unpinPage pid d).2.pages fr).pinCount = 0)) := by
  have inv := BPM.reach_inv_pool hs
  refine ⟨⟨?_, ?_⟩, ?_, ?_⟩
  · -- success implies a valid pinned resident page
    intro h
    unfold BPM.unpinPage at h
    cases hfind : ptFind s.pageTable pid with
    | none =>
      rw [hfind] at h
      cases h
    | some fr =>
      rw [hfind] at h
      dsimp only at h
      by_cases hpid : pid = -1
      · rw [if_pos hpid] at h
        cases h
      rw [if_neg hpid] at h
      by_cases hz : (s.pages fr).pinCount = 0
      · rw [if_pos hz] at h
        cases h
      rw [if_neg hz] at h
      exact ⟨fr, rfl, hpid, by omega⟩
  · -- a valid pinned resident page: success
    rintro ⟨fr, hfind, hpid, hpos⟩
    unfold BPM.unpinPage
    rw [hfind]
    dsimp only
    rw [if_neg hpid, if_neg (by omega : ¬ (s.pages fr).pinCount = 0)]
  · -- failure leaves the state untouched
    intro h
    unfold BPM.unpinPage at h ⊢
    cases hfind : ptFind s.pageTable pid with
    | none => rfl
    | some fr =>
      rw [hfind] at h
      dsimp only at h ⊢
      by_cases hpid : pid = -1
      · rw [if_pos hpid]
      rw [if_neg hpid] at h ⊢
      by_cases hz : (s.pages fr).pinCount = 0
      · rw [if_pos hz]
      rw [if_neg hz] at h
      cases h
  · -- the success postconditions
    intro fr hfind hpid hpos
    unfold BPM.unpinPage
    rw [hfind]
    dsimp only
    rw [if_neg hpid, if_neg (by omega : ¬ (s.pages fr).pinCount = 0)]
    dsimp only
    have hbound : ¬ s.replacer.numFrames < fr := by
      rw [inv.replSize]
      have := inv.frameLt pid fr hfind
      omega
    have hcnt := inv.residentCount pid fr hfind
    refine ⟨by rw [fupd_self], ?_, ?_⟩
    · rw [fupd_self]
      cases d
      · simp
      · simp
    · rw [fupd_self]
      dsimp only
      by_cases hz2 : (s.pages fr).pinCount - 1 = 0
      · rw [if_pos hz2, (LRUK.setEvictableD_pos hbound (by omega)).1, fupd_self]
        simp [hz2]
      · rw [if_neg hz2]
        rw [inv.pinPosNotEv fr hpos]
        simp [hz2]

/-- Witness for `bpm_unpin_spec` on a freshly allocated pinned page. -/
theorem bpm_unpin_spec_witness :
    ((((BPM.init 2 2).newPage).2.unpinPage 0 true).2.pages 1).pinCount
        = ((((BPM.init 2 2).newPage).2).pages 1).pinCount - 1
    ∧ ((((BPM.init 2 2).newPage).2.unpinPage 0 true).2.pages 1).dirty
        = (((((BPM.init 2 2).newPage).2).pages 1).dirty || true)
    ∧ ((((BPM.init 2 2).newPage).2.unpinPage 0 true).2.replacer.evictableFlag 1 = true
        ↔ ((((BPM.init 2 2).newPage).2.unpinPage 0 true).2.pages 1).pinCount = 0) :=
  (bpm_unpin_spec ((BPM.init 2 2).newPage).2 (.newP (.init 2 2)) 0 true).2.2 1
    (by decide) (by decide) (by decide)

/-- Witness for `bpt_root_delete_cases` at concrete trees. -/
theorem bpt_root_delete_cases_witness :
    ((BPT.remove 20 c8LeafTree 7).rootPid = -1
      ∧ (BPT.remove 20 c8LeafTree 7).pages c8LeafTree.rootPid = none)
    ∧ ((BPT.deleteEntry 20 c8InternalTree 2 3).rootPid = ([((0 : Int), (0 : Int))].getD 0 (0, 0)).2
      ∧ (BPT.deleteEntry 20 c8InternalTree 2 3).pages 2 = none) :=
  ⟨bpt_root_delete_cases.1 c8LeafTree 7 19 [(7, 7)] (-1) (-1) (by decide) (by decide)
      (by decide),
    bpt_root_delete_cases.2 c8InternalTree 3 19 2 [(0, 0), (3, 1)] [(0, 0)] (-1)
      (by decide) (by decide) (by decide) (by decide)⟩

/-! ## The directory-reference invariant of the extendible hash table (C5)

Structural facts preserved by every `Insert`/`Find`/`Remove`: each directory
slot refers to a bucket whose local depth `L` determines the slot's residue
class mod `2^L`; two slots share a bucket exactly when they agree mod `2^L`,
hence each bucket is referenced by exactly `2^(G-L)` slots. -/

theorem mapWithIdx_length {α β : Type} (f : Nat → α → β) :
    ∀ (n : Nat) (l : List α), (mapWithIdx f n l).length = l.length
  | _, [] => rfl
  | n, _ :: as => congrArg (· + 1) (mapWithIdx_length f (n + 1) as)

theorem mapWithIdx_getD {α β : Type} (f : Nat → α → β) (d : β) (e : α) :
    ∀ (n : Nat) (l : List α) (i : Nat), i < l.length →
      (mapWithIdx f n l).getD i d = f (n + i) (l.getD i e)
  | _, [], _, h => absurd h (by simp)
  | _, _ :: _, 0, _ => by simp [mapWithIdx]
  | n, a :: as, i + 1, h => by
    have ih := mapWithIdx_getD f d e (n + 1) as i (by simpa using h)
    simpa [mapWithIdx, Nat.add_assoc, Nat.add_comm 1 i] using ih

theorem getD_append_self (l : List Nat) (i : Nat) (h : i < 2 * l.length) :
    (l ++ l).getD i 0 = l.getD (i % l.length) 0 := by
  rcases Nat.lt_or_ge i l.length with hlt | hge
  · rw [List.getD_append _ _ _ _ hlt, Nat.mod_eq_of_lt hlt]
  · rw [List.getD_append_right _ _ _ _ hge, Nat.mod_eq_sub_mod hge,
      Nat.mod_eq_of_lt (by omega)]

theorem and_two_pow_eq_zero_iff (i L : Nat) :
    i &&& 2 ^ L = 0 ↔ i / 2 ^ L % 2 = 0 := by
  rw [Nat.and_two_pow i L, Nat.testBit_to_div_mod]
  rcases Nat.mod_two_eq_zero_or_one (i / 2 ^ L) with h | h
  · rw [h]; simp
  · rw [h]; simp [(Nat.two_pow_pos L).ne']

theorem mod_two_pow_succ (i L : Nat) :
    i % 2 ^ (L + 1) = i % 2 ^ L + 2 ^ L * (i / 2 ^ L % 2) := by
  rw [pow_succ]
  exact Nat.mod_mul

theorem mod_pow_succ_iff {i j L : Nat} (h : i % 2 ^ L = j % 2 ^ L) :
    i % 2 ^ (L + 1) = j % 2 ^ (L + 1) ↔ i / 2 ^ L % 2 = j / 2 ^ L % 2 := by
  rw [mod_two_pow_succ, mod_two_pow_succ, h]
  constructor
  · intro he
    exact Nat.eq_of_mul_eq_mul_left (Nat.two_pow_pos L) (Nat.add_left_cancel he)
  · intro he
    rw [he]

theorem split_bit_iff {i j L : Nat} (h : i % 2 ^ L = j % 2 ^ L) :
    ((i &&& 2 ^ L = 0) ↔ (j &&& 2 ^ L = 0)) ↔ i % 2 ^ (L + 1) = j % 2 ^ (L + 1) := by
  rw [and_two_pow_eq_zero_iff, and_two_pow_eq_zero_iff, mod_pow_succ_iff h]
  rcases Nat.mod_two_eq_zero_or_one (i / 2 ^ L) with h1 | h1 <;>
    rcases Nat.mod_two_eq_zero_or_one (j / 2 ^ L) with h2 | h2 <;>
      rw [h1, h2] <;> decide

theorem countP_range_eq (m r : Nat) (hr : r < m) :
    (List.range m).countP (fun j => j == r) = 1 := by
  induction m with
  | zero => omega
  | succ m ih =>
    rw [List.range_succ, List.countP_append]
    rcases Nat.lt_or_ge r m with hlt | hge
    · rw [ih hlt]
      have hm : ((fun j => j == r) m) = false := by
        simp
        omega
      simp [List.countP_cons, hm]
    · have hrm : r = m := by omega
      subst hrm
      have h0 : (List.range r).countP (fun j => j == r) = 0 := by
        rw [List.countP_eq_zero]
        intro a ha
        have := List.mem_range.mp ha
        simp
        omega
      rw [h0]
      simp [List.countP_cons]

theorem countP_range_mod (c m r : Nat) (hm : 0 < m) (hr : r < m) :
    (List.range (c * m)).countP (fun j => j % m == r) = c := by
  induction c with
  | zero => simp
  | succ c ih =>
    have hcm : (c + 1) * m = c * m + m := by ring
    rw [hcm, List.range_add, List.countP_append, ih, List.countP_map]
    have hcongr : ∀ x ∈ List.range m,
        ((fun j => j % m == r) ∘ (fun j => c * m + j)) x = true
          ↔ ((fun j => j == r) x) = true := by
      intro x hx
      have hxm : x < m := List.mem_range.mp hx
      simp only [Function.comp]
      rw [mul_comm c m, Nat.mul_add_mod, Nat.mod_eq_of_lt hxm]
    rw [List.countP_congr hcongr, countP_range_eq m r hr]

theorem countP_range_two_pow (G d r : Nat) (hd : d ≤ G) (hr : r < 2 ^ d) :
    (List.range (2 ^ G)).countP (fun j => j % 2 ^ d == r) = 2 ^ (G - d) := by
  have h : 2 ^ G = 2 ^ (G - d) * 2 ^ d := by
    rw [← pow_add]
    congr 1
    omega
  rw [h]
  exact countP_range_mod _ _ _ (Nat.two_pow_pos d) hr

/-- The directory invariant of the extendible hash table: the directory has
`2^G` slots, every referenced bucket has local depth at most `G`, two slots
reference the same bucket exactly when they agree modulo `2^L` (`L` the local
depth of the first slot's bucket), and every referenced bucket id is below the
allocation counter (so freshly allocated split buckets are distinct from all
referenced ones). -/
structure EHT.Inv (t : EHT) : Prop where
  lenEq : t.dirIds.length = 2 ^ t.globalDepth
  depthLe : ∀ i, i < t.dirIds.length →
    (t.buckets (t.dirIds.getD i 0)).depth ≤ t.globalDepth
  refIff : ∀ i j, i < t.dirIds.length → j < t.dirIds.length →
    (t.dirIds.getD i 0 = t.dirIds.getD j 0 ↔
      i % 2 ^ (t.buckets (t.dirIds.getD i 0)).depth
        = j % 2 ^ (t.buckets (t.dirIds.getD i 0)).depth)
  idLt : ∀ i, i < t.dirIds.length → t.dirIds.getD i 0 < t.nextId

theorem EHT.inv_init_table (bucketSize : Nat) : EHT.Inv (EHT.init bucketSize) := by
  constructor
  · rfl
  · intro i hi
    simp [EHT.init] at hi
    subst hi
    simp [EHT.init]
  · intro i j hi hj
    simp [EHT.init] at hi hj
    subst hi
    subst hj
    exact iff_of_true rfl rfl
  · intro i hi
    simp [EHT.init] at hi
    subst hi
    simp [EHT.init]

theorem EHT.inv_double (t : EHT) (inv : EHT.Inv t) : EHT.Inv t.double := by
  have hpos : 0 < t.dirIds.length := by
    rw [inv.lenEq]
    exact Nat.two_pow_pos _
  have hlen2 : (t.dirIds ++ t.dirIds).length = 2 * t.dirIds.length := by
    rw [List.length_append]
    omega
  have hgd : ∀ i, i < 2 * t.dirIds.length →
      (t.dirIds ++ t.dirIds).getD i 0 = t.dirIds.getD (i % t.dirIds.length) 0 :=
    fun i hi => getD_append_self t.dirIds i hi
  have hmodlt : ∀ i : Nat, i % t.dirIds.length < t.dirIds.length :=
    fun i => Nat.mod_lt _ hpos
  constructor
  · show (t.dirIds ++ t.dirIds).length = 2 ^ (t.globalDepth + 1)
    rw [hlen2, inv.lenEq, pow_succ]
    omega
  · intro i hi
    replace hi : i < (t.dirIds ++ t.dirIds).length := hi
    rw [hlen2] at hi
    show (t.buckets ((t.dirIds ++ t.dirIds).getD i 0)).depth ≤ t.globalDepth + 1
    rw [hgd i hi]
    exact le_trans (inv.depthLe _ (hmodlt i)) (Nat.le_succ _)
  · intro i j hi hj
    replace hi : i < (t.dirIds ++ t.dirIds).length := hi
    replace hj : j < (t.dirIds ++ t.dirIds).length := hj
    rw [hlen2] at hi hj
    show (t.dirIds ++ t.dirIds).getD i 0 = (t.dirIds ++ t.dirIds).getD j 0 ↔
      i % 2 ^ (t.buckets ((t.dirIds ++ t.dirIds).getD i 0)).depth
        = j % 2 ^ (t.buckets ((t.dirIds ++ t.dirIds).getD i 0)).depth
    rw [hgd i hi, hgd j hj]
    have hd := inv.depthLe _ (hmodlt i)
    have hmm : ∀ (a d : Nat), d ≤ t.globalDepth →
        (a % t.dirIds.length) % 2 ^ d = a % 2 ^ d := by
      intro a d hd2
      rw [inv.lenEq]
      exact Nat.mod_mod_of_dvd a (pow_dvd_pow 2 hd2)
    rw [inv.refIff _ _ (hmodlt i) (hmodlt j), hmm i _ hd, hmm j _ hd]
  · intro i hi
    replace hi : i < (t.dirIds ++ t.dirIds).length := hi
    rw [hlen2] at hi
    show (t.dirIds ++ t.dirIds).getD i 0 < t.nextId
    rw [hgd i hi]
    exact inv.idLt _ (hmodlt i)

theorem EHT.inv_redirect (t1 : EHT) (inv : EHT.Inv t1) (targetId L : Nat)
    (it0 it1 : List (Nat × Int)) (bs nb : Nat)
    (hdep : (t1.buckets targetId).depth = L)
    (hLG : L < t1.globalDepth) :
    EHT.Inv
      { globalDepth := t1.globalDepth
        bucketSize := t1.bucketSize
        numBuckets := nb
        dirIds := mapWithIdx
          (fun i id => if id = targetId then
              (if ¬ i &&& (1 <<< L) = 0 then t1.nextId + 1 else t1.nextId) else id)
          0 t1.dirIds
        buckets := fupd (fupd t1.buckets t1.nextId ⟨bs, L + 1, it0⟩)
            (t1.nextId + 1) ⟨bs, L + 1, it1⟩
        nextId := t1.nextId + 2 } := by
  have hmask : (1 : Nat) <<< L = 2 ^ L := by
    rw [Nat.shiftLeft_eq, one_mul]
  have hne01 : t1.nextId ≠ t1.nextId + 1 := by omega
  have hbk1 : (fupd (fupd t1.buckets t1.nextId ⟨bs, L + 1, it0⟩)
      (t1.nextId + 1) ⟨bs, L + 1, it1⟩) (t1.nextId + 1) = ⟨bs, L + 1, it1⟩ :=
    fupd_self _ _ _
  have hbk0 : (fupd (fupd t1.buckets t1.nextId ⟨bs, L + 1, it0⟩)
      (t1.nextId + 1) ⟨bs, L + 1, it1⟩) t1.nextId = ⟨bs, L + 1, it0⟩ := by
    rw [fupd_ne _ _ _ hne01, fupd_self]
  have hbkO : ∀ v, v ≠ t1.nextId → v ≠ t1.nextId + 1 →
      (fupd (fupd t1.buckets t1.nextId ⟨bs, L + 1, it0⟩)
        (t1.nextId + 1) ⟨bs, L + 1, it1⟩) v = t1.buckets v := by
    intro v h0 h1
    rw [fupd_ne _ _ _ h1, fupd_ne _ _ _ h0]
  have hgd : ∀ i, i < t1.dirIds.length →
      (mapWithIdx
        (fun i id => if id = targetId then
            (if ¬ i &&& (1 <<< L) = 0 then t1.nextId + 1 else t1.nextId) else id)
        0 t1.dirIds).getD i 0
      = (if t1.dirIds.getD i 0 = targetId then
          (if ¬ i &&& (1 <<< L) = 0 then t1.nextId + 1 else t1.nextId)
        else t1.dirIds.getD i 0) := by
    intro i hi
    have := mapWithIdx_getD
      (fun i id => if id = targetId then
          (if ¬ i &&& (1 <<< L) = 0 then t1.nextId + 1 else t1.nextId) else id)
      0 0 0 t1.dirIds i hi
    simpa using this
  constructor
  · dsimp only
    rw [mapWithIdx_length]
    exact inv.lenEq
  · intro i hi
    dsimp only at hi ⊢
    rw [mapWithIdx_length] at hi
    rw [hgd i hi]
    by_cases h0 : t1.dirIds.getD i 0 = targetId
    · rw [if_pos h0]
      by_cases hb : ¬ i &&& (1 <<< L) = 0
      · rw [if_pos hb, hbk1]
        exact hLG
      · rw [if_neg hb, hbk0]
        exact hLG
    · rw [if_neg h0]
      have hlt := inv.idLt i hi
      rw [hbkO _ (by omega) (by omega)]
      exact inv.depthLe i hi
  · intro i j hi hj
    dsimp only at hi hj ⊢
    rw [mapWithIdx_length] at hi hj
    rw [hgd i hi, hgd j hj]
    have hlti := inv.idLt i hi
    have hltj := inv.idLt j hj
    by_cases h0 : t1.dirIds.getD i 0 = targetId <;>
      by_cases h1 : t1.dirIds.getD j 0 = targetId
    · rw [if_pos h0, if_pos h1]
      have hdi : (t1.buckets (t1.dirIds.getD i 0)).depth = L := by
        rw [h0]
        exact hdep
      have hmods : i % 2 ^ L = j % 2 ^ L := by
        have base := inv.refIff i j hi hj
        rw [hdi] at base
        exact base.mp (h0.trans h1.symm)
      rw [hmask]
      by_cases hbi : i &&& 2 ^ L = 0 <;> by_cases hbj : j &&& 2 ^ L = 0
      · rw [if_neg (not_not_intro hbi), if_neg (not_not_intro hbj), hbk0]
        exact iff_of_true rfl ((split_bit_iff hmods).mp (iff_of_true hbi hbj))
      · rw [if_neg (not_not_intro hbi), if_pos hbj, hbk0]
        exact iff_of_false (by omega)
          (fun hc => hbj (((split_bit_iff hmods).mpr hc).mp hbi))
      · rw [if_pos hbi, if_neg (not_not_intro hbj), hbk1]
        exact iff_of_false (by omega)
          (fun hc => hbi (((split_bit_iff hmods).mpr hc).mpr hbj))
      · rw [if_pos hbi, if_pos hbj, hbk1]
        exact iff_of_true rfl ((split_bit_iff hmods).mp (iff_of_false hbi hbj))
    · rw [if_pos h0, if_neg h1]
      have hdi : (t1.buckets (t1.dirIds.getD i 0)).depth = L := by
        rw [h0]
        exact hdep
      have hkey : ¬ (i % 2 ^ (L + 1) = j % 2 ^ (L + 1)) := by
        intro hc
        have d1 := congrArg (fun x => x % 2 ^ L) hc
        simp only at d1
        rw [Nat.mod_mod_of_dvd i (pow_dvd_pow 2 (Nat.le_succ L)),
          Nat.mod_mod_of_dvd j (pow_dvd_pow 2 (Nat.le_succ L))] at d1
        have base := inv.refIff i j hi hj
        rw [hdi] at base
        exact h1 ((base.mpr d1).symm.trans h0)
      rw [hmask]
      by_cases hbi : i &&& 2 ^ L = 0
      · rw [if_neg (not_not_intro hbi), hbk0]
        exact iff_of_false (by omega) hkey
      · rw [if_pos hbi, hbk1]
        exact iff_of_false (by omega) hkey
    · rw [if_neg h0, if_pos h1]
      rw [hbkO _ (by omega) (by omega)]
      refine iff_of_false ?_ ?_
      · rw [hmask]
        by_cases hbj : j &&& 2 ^ L = 0
        · rw [if_neg (not_not_intro hbj)]
          omega
        · rw [if_pos hbj]
          omega
      · intro hc
        exact h0 (((inv.refIff i j hi hj).mpr hc).trans h1)
    · rw [if_neg h0, if_neg h1]
      rw [hbkO _ (by omega) (by omega)]
      exact inv.refIff i j hi hj
  · intro i hi
    dsimp only at hi ⊢
    rw [mapWithIdx_length] at hi
    rw [hgd i hi]
    have := inv.idLt i hi
    by_cases h0 : t1.dirIds.getD i 0 = targetId
    · rw [if_pos h0]
      by_cases hb : ¬ i &&& (1 <<< L) = 0
      · rw [if_pos hb]
        omega
      · rw [if_neg hb]
        omega
    · rw [if_neg h0]
      omega

theorem EHT.inv_splitStep (t : EHT) (inv : EHT.Inv t) (k : Nat) :
    EHT.Inv (t.splitStep k) := by
  have hidx : t.indexOf k < t.dirIds.length := by
    rw [inv.lenEq]
    exact Nat.mod_lt _ (Nat.two_pow_pos _)
  by_cases hGL : t.globalDepth = (t.buckets (t.dirIds.getD (t.indexOf k) 0)).depth
  · have inv2 := EHT.inv_double t inv
    have hLG2 : (t.buckets (t.dirIds.getD (t.indexOf k) 0)).depth
        < (t.double).globalDepth := by
      show _ < t.globalDepth + 1
      omega
    simp only [EHT.splitStep, if_pos hGL]
    exact EHT.inv_redirect t.double inv2 _ _ _ _ _ _ rfl hLG2
  · have hLle := inv.depthLe _ hidx
    have hLG' : (t.buckets (t.dirIds.getD (t.indexOf k) 0)).depth
        < t.globalDepth := by omega
    simp only [EHT.splitStep, if_neg hGL]
    exact EHT.inv_redirect t inv _ _ _ _ _ _ rfl hLG'

theorem EHT.inv_bucketItems (t : EHT) (inv : EHT.Inv t) (id : Nat)
    (its : List (Nat × Int)) :
    EHT.Inv { t with buckets := fupd t.buckets id { t.buckets id with items := its } } := by
  have hdep : ∀ v, ((fupd t.buckets id { t.buckets id with items := its }) v).depth
      = (t.buckets v).depth := by
    intro v
    by_cases h : v = id
    · subst h
      rw [fupd_self]
    · rw [fupd_ne _ _ _ h]
  constructor
  · exact inv.lenEq
  · intro i hi
    dsimp only at hi ⊢
    rw [hdep]
    exact inv.depthLe i hi
  · intro i j hi hj
    dsimp only at hi hj ⊢
    rw [hdep]
    exact inv.refIff i j hi hj
  · exact inv.idLt

theorem EHT.inv_upsert (t : EHT) (inv : EHT.Inv t) (k : Nat) (v : Int) :
    EHT.Inv (t.upsert k v) := by
  simp only [EHT.upsert]
  exact EHT.inv_bucketItems t inv _ _

theorem EHT.inv_removeKey (t : EHT) (inv : EHT.Inv t) (k : Nat) :
    EHT.Inv (t.removeKey k).2 := by
  simp only [EHT.removeKey]
  cases hf : (t.buckets (t.dirIds.getD (t.indexOf k) 0)).items.find?
      (fun p => p.1 == k) with
  | none => exact inv
  | some p => exact EHT.inv_bucketItems t inv _ _

theorem EHT.inv_insertLoop : ∀ (fuel : Nat) (t : EHT) (k : Nat) (t' : EHT),
    EHT.Inv t → EHT.insertLoop fuel t k = some t' → EHT.Inv t'
  | 0, t, k, t', inv, h => by
    cases hful : t.fullAt k
    · simp [EHT.insertLoop, hful] at h
      exact h ▸ inv
    · simp [EHT.insertLoop, hful] at h
  | fuel + 1, t, k, t', inv, h => by
    cases hful : t.fullAt k
    · simp [EHT.insertLoop, hful] at h
      exact h ▸ inv
    · simp only [EHT.insertLoop, hful, if_true] at h
      exact EHT.inv_insertLoop fuel _ k t' (EHT.inv_splitStep t inv k) h

theorem EHT.reach_inv_table {t : EHT} (h : EHT.Reach t) : EHT.Inv t := by
  induction h with
  | init bucketSize => exact EHT.inv_init_table bucketSize
  | insert hr he ih =>
    rw [EHT.insert, Option.map_eq_some'] at he
    obtain ⟨u, hu, hup⟩ := he
    subst hup
    exact EHT.inv_upsert u (EHT.inv_insertLoop _ _ _ _ ih hu) _ _
  | remove k hr ih => exact EHT.inv_removeKey _ ih k

/-- **C5**: on every table reachable by `Insert`/`Find`/`Remove` from the
constructor state, (i) two directory slots reference the same bucket exactly
when they agree modulo `2^L`, `L` being the local depth of the bucket
referenced by the first slot (so each slot's residue `i mod 2^L` is the
bucket's well-defined low-bit identifier); (ii) exactly `2^(G-L)` of the `2^G`
directory slots reference any given referenced bucket; (iii) when the
directory doubles, slot `c + i` of the doubled directory points where slot `i`
did. -/
theorem eht_directory_invariant (t : EHT) (ht : EHT.Reach t) :
    (∀ i j, i < t.dirIds.length → j < t.dirIds.length →
      (t.dirIds.getD i 0 = t.dirIds.getD j 0 ↔
        i % 2 ^ (t.buckets (t.dirIds.getD i 0)).depth
          = j % 2 ^ (t.buckets (t.dirIds.getD i 0)).depth))
    ∧ (∀ i, i < t.dirIds.length →
      (List.range t.dirIds.length).countP
          (fun j => t.dirIds.getD j 0 == t.dirIds.getD i 0)
        = 2 ^ (t.globalDepth - (t.buckets (t.dirIds.getD i 0)).depth))
    ∧ (∀ (u : EHT) (i : Nat), i < u.dirIds.length →
      (u.double).dirIds.getD (u.dirIds.length + i) 0 = u.dirIds.getD i 0) := by
  have inv := EHT.reach_inv_table ht
  refine ⟨inv.refIff, ?_, ?_⟩
  · intro i hi
    have hd := inv.depthLe i hi
    have hmodlt : i % 2 ^ (t.buckets (t.dirIds.getD i 0)).depth
        < 2 ^ (t.buckets (t.dirIds.getD i 0)).depth :=
      Nat.mod_lt _ (Nat.two_pow_pos _)
    have hc : (List.range t.dirIds.length).countP
        (fun j => t.dirIds.getD j 0 == t.dirIds.getD i 0)
      = (List.range t.dirIds.length).countP
        (fun j => j % 2 ^ (t.buckets (t.dirIds.getD i 0)).depth
            == i % 2 ^ (t.buckets (t.dirIds.getD i 0)).depth) := by
      apply List.countP_congr
      intro j hj
      have hjlen : j < t.dirIds.length := List.mem_range.mp hj
      simp only [beq_iff_eq]
      have base := inv.refIff i j hi hjlen
      constructor
      · intro hji
        exact (base.mp hji.symm).symm
      · intro hmod
        exact (base.mpr hmod.symm).symm
    rw [hc, inv.lenEq]
    exact countP_range_two_pow _ _ _ hd hmodlt
  · intro u i hi
    show (u.dirIds ++ u.dirIds).getD (u.dirIds.length + i) 0 = u.dirIds.getD i 0
    rw [List.getD_append_right _ _ _ _ (Nat.le_add_right _ _),
      Nat.add_sub_cancel_left]

theorem s4Table_reach : EHT.Reach s4Table :=
  @EHT.Reach.insert (((EHT.init 2).upsert 1 1).upsert 5 2) s4Table 10 9 3
    (@EHT.Reach.insert ((EHT.init 2).upsert 1 1)
      (((EHT.init 2).upsert 1 1).upsert 5 2) 10 5 2
      (@EHT.Reach.insert (EHT.init 2) ((EHT.init 2).upsert 1 1) 10 1 1
        (EHT.Reach.init 2) rfl)
      rfl)
    rfl

theorem eht_directory_invariant_witness :
    (List.range s4Table.dirIds.length).countP
        (fun j => s4Table.dirIds.getD j 0 == s4Table.dirIds.getD 1 0)
      = 2 ^ (s4Table.globalDepth - (s4Table.buckets (s4Table.dirIds.getD 1 0)).depth) :=
  (eht_directory_invariant s4Table s4Table_reach).2.1 1 (by decide)

end BusTub
